import Mathlib

/-!
Verification of the hashira-polynomial interpolation core.

Shallow embedding of the JavaScript sources (the hardened variants: the
module exporting `findConstantTermFromFile` and the module exporting
`findConstantTermFromString`), together with proofs of the specification
claims about them.

Modelling conventions:
* JS `BigInt` values are `Int`; `BigInt` division (`/`) truncates toward
  zero, which is `Int.tdiv`.
* JS strings are `String` / `List Char`.  `String.prototype.toLowerCase`
  as used for digit lookup is modelled by `jsToLower`: ASCII case folding
  plus the one non-ASCII mapping that can reach the alphabet,
  U+212A (KELVIN SIGN) to `k`.  Characters whose full Unicode lowercase
  is any other string (for example U+0130, which lowercases to the
  two-character `i̇`) can never match a key of the single-character
  `DIGIT_MAP`, so mapping them to themselves is faithful for the lookup.
* Thrown `Error`s are an explicit error type `JsErr`; each `throw` site is
  mapped to the constructor named by the spec's error taxonomy (section 7
  of the spec).  The three "empty" messages of the parser
  (`Empty value string`, `only sign found`, `after removing separators`)
  all map to `JsErr.emptyValue`, the spec's `EmptyValue` class.
* JSON values (the result of `JSON.parse`) are the inductive `JVal`; a
  parsed top-level record is its field list in property-iteration order.
  JS `Number(x)` is partially modelled: only decimal integer literals are
  given a value, and every other numeric string is `none` (treated like
  `NaN`).  This deliberately narrows the modelled record space at
  `keys.k` — for example `"1e3"`, `"12.0"` or `"0x10"` are integral under
  JS `Number` but fall outside the model; records using such a `k`
  encoding are simply not covered by the record-pipeline theorems.
-/

/-- Error taxonomy of the program (spec section 7).  Each constructor
corresponds to one class of `throw new Error(...)` site in the source. -/
inductive JsErr where
  | zeroDenominator
  | invalidBase
  | emptyValue
  | invalidCharacter
  | invalidK
  | insufficientPoints
  | duplicateX
  | degenerateDenominator
  | missingK
  | invalidPointKey
  | invalidPointEntry
  | invalidValueType
  deriving DecidableEq

/-- Decidable equality of `Except` results, used to evaluate the model on
concrete inputs. -/
instance {ε α : Type _} [DecidableEq ε] [DecidableEq α] : DecidableEq (Except ε α) := fun x y =>
  match x, y with
  | .ok a, .ok b =>
    if h : a = b then .isTrue (by rw [h]) else .isFalse (fun hh => by cases hh; exact h rfl)
  | .error e, .error f =>
    if h : e = f then .isTrue (by rw [h]) else .isFalse (fun hh => by cases hh; exact h rfl)
  | .ok _, .error _ => .isFalse (fun hh => by cases hh)
  | .error _, .ok _ => .isFalse (fun hh => by cases hh)

/-- Model of `bigIntGcd(a, b)`: absolute values are taken first, then the Euclidean
remainder-swap loop `while (b !== 0n) { t = a % b; a = b; b = t; } return a`
runs.  The loop satisfies `loop a b = Nat.gcd b a` step by step
(`Nat.gcd`'s defining equations are `gcd 0 a = a` and
`gcd b a = gcd (a % b) b` for `b ≠ 0`, the same remainder swap), so it is
modelled by `Nat.gcd` with the arguments swapped. -/
def bigIntGcd (a b : Int) : Int :=
  (Nat.gcd (if b < 0 then -b else b).natAbs (if a < 0 then -a else a).natAbs : Int)

/-- Model of `reduceFraction(num, den)`: rejects a zero denominator, normalises the
sign so the denominator is positive, divides by the gcd.  JS `BigInt`
division is exact here but written as truncating division (`Int.tdiv`),
matching the source. -/
def reduceFraction (num den : Int) : Except JsErr (Int × Int) :=
  if den = 0 then .error .zeroDenominator
  else
    let num' := if den < 0 then -num else num
    let den' := if den < 0 then -den else den
    let g := bigIntGcd (if num' < 0 then -num' else num') den'
    .ok (num'.tdiv g, den'.tdiv g)

/-- The digit alphabet `DIGITS = '0123456789abcdefghijklmnopqrstuvwxyz'`. -/
def DIGITS : List Char := "0123456789abcdefghijklmnopqrstuvwxyz".data

/-- JS `toLowerCase` restricted to a single character, as far as the
`DIGIT_MAP` lookup can observe it: ASCII `A`-`Z` fold to `a`-`z`, and
U+212A (KELVIN SIGN) folds to `k` — the only non-ASCII character whose JS
lowercase is a single character in the alphabet.  Every other character
either is its own lowercase or lowercases to a string that cannot equal a
single-character `DIGIT_MAP` key, so the identity is faithful for it. -/
def jsToLower (c : Char) : Char :=
  if c = '\u212A' then 'k' else c.toLower

/-- The `DIGIT_MAP` lookup composed with `toLowerCase`: position of the
lowercased character in the alphabet, `none` when absent (the source's
`-1`). -/
def digitVal (c : Char) : Option Nat :=
  DIGITS.findIdx? (· == jsToLower c)

/-- The JS whitespace characters recognised by `String.prototype.trim`. -/
def jsWhitespaceChars : List Char :=
  [' ', '\t', '\n', '\r', '\x0b', '\x0c', '\u00A0', '\u1680',
   '\u2000', '\u2001', '\u2002', '\u2003', '\u2004', '\u2005', '\u2006',
   '\u2007', '\u2008', '\u2009', '\u200A', '\u2028', '\u2029', '\u202F',
   '\u205F', '\u3000', '\uFEFF']

/-- Whether a character is JS whitespace. -/
def isJsWs (c : Char) : Bool := jsWhitespaceChars.contains c

/-- Model of `String.prototype.trim`: drop whitespace from both ends. -/
def jsTrim (l : List Char) : List Char :=
  ((l.dropWhile isJsWs).reverse.dropWhile isJsWs).reverse

/-- The digit-accumulation loop of `parseBigIntFromString`:
`result = result * baseBig + digit`, throwing on a character that is not
in the alphabet or whose value is `>= base`. -/
def parseDigits (base : Int) : Int → List Char → Except JsErr Int
  | acc, [] => .ok acc
  | acc, c :: rest =>
    match digitVal c with
    | none => .error .invalidCharacter
    | some d =>
      if base ≤ (d : Int) then .error .invalidCharacter
      else parseDigits base (acc * base + (d : Int)) rest

/-- The tail of `parseBigIntFromString` after the sign has been handled:
strip `_` separators, reject an empty remainder, run the digit loop and
apply the sign at the end. -/
def parseAfterSign (sign base : Int) (s : List Char) : Except JsErr Int :=
  let s' := s.filter (· != '_')
  if s' = [] then .error .emptyValue
  else (parseDigits base 0 s').map (fun r => sign * r)

/-- Model of `parseBigIntFromString(valueString, base)`.  The `base` argument is
`Option Int`: `none` models `Number(base)` being `NaN` (e.g. a failed
`parseInt` upstream), which fails the `Number.isInteger` test exactly
like an out-of-range integer. -/
def parseBigIntFromString (valueString : String) (base : Option Int) : Except JsErr Int :=
  match base with
  | none => .error .invalidBase
  | some b =>
    if b < 2 ∨ 36 < b then .error .invalidBase
    else
      let s := jsTrim valueString.data
      if s = [] then .error .emptyValue
      else
        match s with
        | '+' :: rest =>
          if rest = [] then .error .emptyValue else parseAfterSign 1 b rest
        | '-' :: rest =>
          if rest = [] then .error .emptyValue else parseAfterSign (-1) b rest
        | _ => parseAfterSign 1 b s

/-- The inner loop of `computeConstantTermFromSelected` for outer index
`j` (`for (i = 0; i < k; i++)`, here recursion over the index list
`List.range k`): skip `i = j`, throw on `x_i = x_j`, otherwise multiply
`numerator *= (0 - x_i)` and `denominator *= (x_j - x_i)`. -/
def innerLoop (pts : List (Int × Int)) (xj : Int) (j : Nat) :
    List Nat → Int → Int → Except JsErr (Int × Int)
  | [], num, den => .ok (num, den)
  | i :: rest, num, den =>
    if i = j then innerLoop pts xj j rest num den
    else
      let xi := (pts.getD i (0, 0)).1
      if xi = xj then .error .duplicateX
      else innerLoop pts xj j rest (num * (0 - xi)) (den * (xj - xi))

/-- The outer loop of `computeConstantTermFromSelected`
(`for (j = 0; j < k; j++)`, here recursion over `List.range k`): for each
`j`, form the term `(y_j * N_j) / D_j`, reduce it, and fold it into the
running total by cross-multiplied addition, reducing again. -/
def outerLoop (pts : List (Int × Int)) (k : Nat) :
    List Nat → Int → Int → Except JsErr (Int × Int)
  | [], totalNum, totalDen => .ok (totalNum, totalDen)
  | j :: rest, totalNum, totalDen =>
    let xj := (pts.getD j (0, 0)).1
    let yj := (pts.getD j (0, 0)).2
    match innerLoop pts xj j (List.range k) 1 1 with
    | .error e => .error e
    | .ok nd =>
      match reduceFraction (yj * nd.1) nd.2 with
      | .error e => .error e
      | .ok term =>
        match reduceFraction (totalNum * term.2 + term.1 * totalDen) (totalDen * term.2) with
        | .error e => .error e
        | .ok tot => outerLoop pts k rest tot.1 tot.2

/-- Model of `computeConstantTermFromSelected(selectedPoints, k)`.  `k` is a `Nat`
(the JS code checks `Number.isInteger(k) && k > 0`; only the positivity
check is representable), and the final reduction after the
zero-denominator guard is included. -/
def computeConstantTermFromSelected (selectedPoints : List (Int × Int)) (k : Nat) :
    Except JsErr (Int × Int) :=
  if k = 0 then .error .invalidK
  else if selectedPoints.length < k then .error .insufficientPoints
  else
    match outerLoop selectedPoints k (List.range k) 0 1 with
    | .error e => .error e
    | .ok tot =>
      if tot.2 = 0 then .error .degenerateDenominator
      else reduceFraction tot.1 tot.2

/-- JSON values as produced by `JSON.parse`.  JSON numbers are restricted
to integers in this model (every numeric literal the pipeline meaningfully
consumes is integral; a non-integral number fails the code's
`Number.isInteger` checks exactly as `NaN` does, see `jsNumber`). -/
inductive JVal where
  | str : String → JVal
  | num : Int → JVal
  | boolv : Bool → JVal
  | null : JVal
  | arr : List JVal → JVal
  | obj : List (String × JVal) → JVal

/-- JS truthiness of a JSON value (`!v` is `!truthy v`). -/
def JVal.truthy : JVal → Bool
  | .null => false
  | .boolv b => b
  | .num n => n != 0
  | .str s => s != ""
  | .arr _ => true
  | .obj _ => true

/-- JS property access `v[name]`: `none` is `undefined`.  On a JSON
object, duplicate field names keep the last occurrence (as `JSON.parse`
does); on any non-object value every property is `undefined`. -/
def jsonField (v : JVal) (name : String) : Option JVal :=
  match v with
  | .obj fields => (fields.reverse.find? (fun f => f.1 == name)).map (·.2)
  | _ => none

mutual

/-- JS `String(v)` for JSON values; the `Bool` flag marks an array
element position, where `null` renders as the empty string
(`Array.prototype.join` semantics). -/
def jsToStringAux (inElem : Bool) : JVal → String
  | .str s => s
  | .num n => toString n
  | .boolv b => cond b "true" "false"
  | .null => cond inElem "" "null"
  | .obj _ => "[object Object]"
  | .arr l => String.intercalate "," (jsToStringElems l)

/-- The `String(...)` coercion of each element of a JSON array, for
`Array.prototype.join`. -/
def jsToStringElems : List JVal → List String
  | [] => []
  | v :: rest => jsToStringAux true v :: jsToStringElems rest

end

/-- JS `String(v)`. -/
def jsToString (v : JVal) : String := jsToStringAux false v

/-- Decimal value of a list of ASCII digits, accumulated left to right. -/
def decimalNat (l : List Char) : Int :=
  l.foldl (fun a c => a * 10 + ((c.toNat - '0'.toNat : Nat) : Int)) 0

/-- JS `parseInt(s, 10)`: skip leading whitespace, take an optional sign
and the longest leading run of decimal digits; `none` is `NaN`. -/
def jsParseInt10 (s : String) : Option Int :=
  let l := s.data.dropWhile isJsWs
  let signed : Int × List Char :=
    match l with
    | '+' :: rest => (1, rest)
    | '-' :: rest => (-1, rest)
    | _ => (1, l)
  let digits := signed.2.takeWhile (·.isDigit)
  if digits = [] then none else some (signed.1 * decimalNat digits)

/-- JS `Number(s)` for strings, restricted to decimal integer literals:
whitespace-only is `0`, an optionally signed all-digit string is its
value, and anything else is `none`.  `none` collapses `NaN` with every
other numeric shape — including forms such as `"1e3"`, `"12.0"` or
`"0x10"` whose JS value is integral — so records encoding `keys.k` in one
of those forms lie outside the modelled input space. -/
def jsNumberOfString (s : String) : Option Int :=
  let t := jsTrim s.data
  if t = [] then some 0
  else
    let signed : Int × List Char :=
      match t with
      | '+' :: rest => (1, rest)
      | '-' :: rest => (-1, rest)
      | _ => (1, t)
    if signed.2 ≠ [] ∧ signed.2.all (·.isDigit) then some (signed.1 * decimalNat signed.2)
    else none

/-- JS `Number(v)` for JSON values (same `none` convention). -/
def jsNumber : JVal → Option Int
  | .num n => some n
  | .boolv b => some (cond b 1 0)
  | .null => some 0
  | .str s => jsNumberOfString s
  | .arr l => jsNumberOfString (jsToString (.arr l))
  | .obj l => jsNumberOfString (jsToString (.obj l))

/-- A parsed top-level JSON record: its fields in property-iteration
order. -/
abbrev Record := List (String × JVal)

/-- Top-level record field lookup (`parsed[name]`), duplicate names keep
the last occurrence. -/
def recordField (r : Record) (name : String) : Option JVal :=
  (r.reverse.find? (fun f => f.1 == name)).map (·.2)

/-- The `keys.k` extraction of `findConstantTermFromString`:
`if (!parsed.keys || typeof parsed.keys.k === 'undefined') throw`, then
`k = Number(parsed.keys.k)` with `Number.isInteger(k) && k > 0`
enforced. -/
def getK (r : Record) : Except JsErr Nat :=
  match recordField r "keys" with
  | none => .error .missingK
  | some keysVal =>
    if keysVal.truthy = false then .error .missingK
    else
      match jsonField keysVal "k" with
      | none => .error .missingK
      | some kVal =>
        match jsNumber kVal with
        | none => .error .invalidK
        | some n => if n ≤ 0 then .error .invalidK else .ok n.toNat

/-- The point-key pattern `/^-?\d+$/`. -/
def keyIsIntString (s : String) : Bool :=
  match s.data with
  | '-' :: rest => !rest.isEmpty && rest.all (·.isDigit)
  | l => !l.isEmpty && l.all (·.isDigit)

/-- Model of `BigInt(rawKey)` for a key matching `/^-?\d+$/`. -/
def keyToInt (s : String) : Int :=
  match s.data with
  | '-' :: rest => -(decimalNat rest)
  | l => decimalNat l

/-- The `value`-typing dispatch of `findConstantTermFromString`: a string
is used as is; a number, bigint or boolean is coerced by `String(...)`;
anything else (including a missing field, `null`, arrays and objects)
throws `InvalidValueType`. -/
def coerceValue : Option JVal → Except JsErr String
  | some (.str s) => .ok s
  | some (.num n) => .ok (toString n)
  | some (.boolv b) => .ok (cond b "true" "false")
  | _ => .error .invalidValueType

/-- Processing of one point entry by `findConstantTermFromString`: the
entry must be truthy and carry a `base` field, the `value` field is
coerced to a string, and the y-coordinate is parsed with
`parseBigIntFromString(valueStr, parseInt(entry.base, 10))`. -/
def entryToY (entry : JVal) : Except JsErr Int :=
  if entry.truthy = false || (jsonField entry "base").isNone then .error .invalidPointEntry
  else
    match coerceValue (jsonField entry "value") with
    | .error e => .error e
    | .ok valueStr =>
      parseBigIntFromString valueStr
        (jsParseInt10 (jsToString ((jsonField entry "base").getD .null)))

/-- The point-collection loop of `findConstantTermFromString`: iterate
the record's fields in order, skip `keys`, validate the key pattern,
parse `x` from the key and `y` from the entry. -/
def buildPoints : Record → Except JsErr (List (Int × Int))
  | [] => .ok []
  | (key, entry) :: rest =>
    if key == "keys" then buildPoints rest
    else if keyIsIntString key = false then .error .invalidPointKey
    else
      match entryToY entry with
      | .error e => .error e
      | .ok y =>
        match buildPoints rest with
        | .error e => .error e
        | .ok pts => .ok ((keyToInt key, y) :: pts)

/-- The post-sort duplicate scan
(`for (i = 1; ...) if (selected[i].x === selected[i-1].x) throw`). -/
def adjacentDupX : List (Int × Int) → Bool
  | a :: b :: rest => a.1 == b.1 || adjacentDupX (b :: rest)
  | _ => false

/-- Model of `pts.sort((a, b) => a.x < b.x ? -1 : a.x > b.x ? 1 : 0)`: a stable
ascending sort by `x`.  JS `Array.prototype.sort` is stable, and the
output of a stable sort is uniquely determined by the comparator and the
input order, so any stable sort models it; `List.insertionSort` is one
(ties are inserted after existing equal keys, preserving input order). -/
def sortPointsByX (pts : List (Int × Int)) : List (Int × Int) :=
  List.insertionSort (fun a b => a.1 ≤ b.1) pts

/-- Model of `findConstantTermFromString`, taken from the parsed record on:
extract `k`, build the point list, check the count, sort ascending by
`x`, select the first `k`, reject adjacent duplicate `x`s, and evaluate.
(The JSON-text stages `JSON.parse` / `extractFirstJsonObject` are outside
the model; the claims under verification all concern the record
pipeline.) -/
def findConstantTermFromString (r : Record) : Except JsErr (Int × Int) :=
  match getK r with
  | .error e => .error e
  | .ok k =>
    match buildPoints r with
    | .error e => .error e
    | .ok pts =>
      if pts.length < k then .error .insufficientPoints
      else
        let selected := (sortPointsByX pts).take k
        if adjacentDupX selected then .error .duplicateX
        else computeConstantTermFromSelected selected k

/-- Model of `processJsonStringOrFileContent`: run the pipeline and format the
reduced fraction — a plain integer string when the denominator is `1`,
otherwise `"num/den"`. -/
def processJsonStringOrFileContent (r : Record) : Except JsErr String :=
  match findConstantTermFromString r with
  | .error e => .error e
  | .ok res =>
    .ok (if res.2 = 1 then toString res.1 else toString res.1 ++ "/" ++ toString res.2)

/-- A character is a valid digit for `base`: it is in the alphabet and its
value is below the base. -/
def validDigitB (base : Int) (c : Char) : Bool :=
  match digitVal c with
  | none => false
  | some d => decide ((d : Int) < base)

/-- The integer digit value of a character (`0` outside the alphabet;
only used on valid digits). -/
def digitValInt (c : Char) : Int := ((digitVal c).getD 0 : Nat)

/-- Standard left-to-right positional evaluation
`result = result * base + digit`. -/
def positionalValue (base : Int) (l : List Char) : Int :=
  l.foldl (fun r c => r * base + digitValInt c) 0

/-- The digit characters the parser actually scans: the trimmed input
after removing one optional leading sign and all `_` separators.  (Defined
on an arbitrary character list; the parser applies it to the trimmed
input.) -/
def coreDigits (l : List Char) : List Char :=
  (match l with
   | '+' :: rest => rest
   | '-' :: rest => rest
   | _ => l).filter (· != '_')

/-- The comparator relation of the point sort is total. -/
instance : IsTotal (Int × Int) (fun a b => a.1 ≤ b.1) :=
  ⟨fun a b => le_total a.1 b.1⟩

/-- The comparator relation of the point sort is transitive. -/
instance : IsTrans (Int × Int) (fun a b => a.1 ≤ b.1) :=
  ⟨fun _ _ _ => le_trans⟩

/-- The processing of a single record field by the point-collection loop:
`none` marks the skipped `keys` field. -/
def pointOfField (f : String × JVal) : Except JsErr (Option (Int × Int)) :=
  if f.1 == "keys" then .ok none
  else if keyIsIntString f.1 = false then .error .invalidPointKey
  else
    match entryToY f.2 with
    | .error e => .error e
    | .ok y => .ok (some (keyToInt f.1, y))

/-- The point contributed by a record field, if any. -/
def fieldPoint (f : String × JVal) : Option (Int × Int) :=
  match pointOfField f with
  | .ok o => o
  | .error _ => none

/-! ## Properties of `bigIntGcd` and `reduceFraction` -/

/-- The conditional negation in the source (`x < 0n ? -x : x`) does not
change the absolute value. -/
theorem natAbs_condNeg (x : Int) : (if x < 0 then -x else x).natAbs = x.natAbs := by
  by_cases h : x < 0 <;> simp [h]

/-- The function `bigIntGcd` agrees with the mathematical gcd of the absolute values. -/
theorem bigIntGcd_eq (a b : Int) : bigIntGcd a b = (Nat.gcd a.natAbs b.natAbs : Int) := by
  unfold bigIntGcd
  rw [natAbs_condNeg, natAbs_condNeg, Nat.gcd_comm]


/-- On a negative denominator, `reduceFraction` behaves as on the negated
pair. -/
theorem reduceFraction_neg (num den : Int) (hlt : den < 0) :
    reduceFraction num den = reduceFraction (-num) (-den) := by
  have h1 : den ≠ 0 := by omega
  have h2 : (-den) ≠ 0 := by omega
  have h3 : ¬ (-den < 0) := by omega
  simp only [reduceFraction, if_neg h1, if_neg h2, if_pos hlt, if_neg h3, neg_neg]

/-- Specification of `reduceFraction` on a positive denominator. -/
theorem reduceFraction_pos (num den : Int) (hpos : 0 < den) :
    ∃ n d, reduceFraction num den = .ok (n, d) ∧ 0 < d ∧
      Nat.Coprime n.natAbs d.natAbs ∧ num * d = n * den := by
  have h : den ≠ 0 := by omega
  have hnotlt : ¬ den < 0 := by omega
  have hg : bigIntGcd (if num < 0 then -num else num) den = (Int.gcd num den : Int) := by
    rw [bigIntGcd_eq, natAbs_condNeg]
    rfl
  set G : Nat := Int.gcd num den with hG
  have hGpos : 0 < G := by
    have hd : den.natAbs ≠ 0 := by
      simp only [Int.natAbs_ne_zero]
      exact h
    have : G = num.natAbs.gcd den.natAbs := rfl
    rw [this]
    exact Nat.gcd_pos_of_pos_right _ (Nat.pos_of_ne_zero hd)
  have hGne : (G : Int) ≠ 0 := by
    exact_mod_cast Nat.pos_iff_ne_zero.mp hGpos
  obtain ⟨n, hn⟩ : (G : Int) ∣ num := Int.gcd_dvd_left
  obtain ⟨d, hd⟩ : (G : Int) ∣ den := Int.gcd_dvd_right
  have htn : num.tdiv (G : Int) = n := by rw [hn, Int.mul_tdiv_cancel_left _ hGne]
  have htd : den.tdiv (G : Int) = d := by rw [hd, Int.mul_tdiv_cancel_left _ hGne]
  refine ⟨n, d, ?_, ?_, ?_, ?_⟩
  · simp only [reduceFraction, if_neg h, if_neg hnotlt, hg, ← hG, htn, htd]
  · rcases lt_trichotomy d 0 with hlt | heq | hgt
    · exfalso
      have hGi : (0 : Int) < (G : Int) := by exact_mod_cast hGpos
      nlinarith [hd]
    · rw [heq, mul_zero] at hd
      omega
    · exact hgt
  · have h1 : num.natAbs = G * n.natAbs := by rw [hn, Int.natAbs_mul, Int.natAbs_ofNat]
    have h2 : den.natAbs = G * d.natAbs := by rw [hd, Int.natAbs_mul, Int.natAbs_ofNat]
    have h3 : G = G * Nat.gcd n.natAbs d.natAbs := by
      conv_lhs => rw [hG, Int.gcd, h1, h2, Nat.gcd_mul_left]
    have h4 : G * 1 = G * Nat.gcd n.natAbs d.natAbs := by
      rw [Nat.mul_one]
      exact h3
    exact (Nat.eq_of_mul_eq_mul_left hGpos h4).symm
  · rw [hn, hd]
    ring

/-- Core specification of `reduceFraction` on a nonzero denominator:
it succeeds, the output denominator is positive, the output is coprime,
and the output represents the same rational (stated by
cross-multiplication). -/
theorem reduceFraction_ok (num den : Int) (h : den ≠ 0) :
    ∃ n d, reduceFraction num den = .ok (n, d) ∧ 0 < d ∧
      Nat.Coprime n.natAbs d.natAbs ∧ num * d = n * den := by
  rcases lt_or_gt_of_ne h with hlt | hpos
  · obtain ⟨n, d, h1, h2, h3, h4⟩ := reduceFraction_pos (-num) (-den) (by omega)
    refine ⟨n, d, ?_, h2, h3, ?_⟩
    · rw [reduceFraction_neg num den hlt]
      exact h1
    · nlinarith [h4]
  · exact reduceFraction_pos num den hpos

/-- An already-normalised fraction (positive denominator, coprime) is a
fixed point of `reduceFraction`. -/
theorem reduceFraction_fixed (n d : Int) (hd : 0 < d) (hco : Nat.Coprime n.natAbs d.natAbs) :
    reduceFraction n d = .ok (n, d) := by
  have hdne : d ≠ 0 := by omega
  have hnotlt : ¬ d < 0 := by omega
  have hg : bigIntGcd (if n < 0 then -n else n) d = (1 : Int) := by
    rw [bigIntGcd_eq, natAbs_condNeg]
    have h1 : n.natAbs.gcd d.natAbs = 1 := hco
    rw [h1]
    rfl
  simp only [reduceFraction, if_neg hdne, if_neg hnotlt, hg, Int.tdiv_one]

/-- The function `reduceFraction` fails (with the `ZeroDenominator` error) exactly on a
zero denominator. -/
theorem reduceFraction_error_iff (num den : Int) :
    reduceFraction num den = .error .zeroDenominator ↔ den = 0 := by
  constructor
  · intro h
    by_contra hne
    obtain ⟨n, d, hok, -⟩ := reduceFraction_ok num den hne
    rw [hok] at h
    cases h
  · intro h
    simp only [reduceFraction, if_pos h]

/-- Cross-multiplied equality of integers gives equality of rationals. -/
theorem ratio_eq_of_cross (n d num den : Int) (hd : d ≠ 0) (hden : den ≠ 0)
    (hcross : num * d = n * den) : (n : ℚ) / (d : ℚ) = (num : ℚ) / (den : ℚ) := by
  rw [div_eq_div_iff (by exact_mod_cast hd) (by exact_mod_cast hden)]
  exact_mod_cast hcross.symm

/-- Claim C7: For all integers `(num, den)` with `den ≠ 0`,
`reduceFraction(num, den)` returns a pair `(n, d)` with `d > 0` and
`gcd(|n|, d) = 1` representing the same rational number; the reduction is
idempotent (`reduceFraction` maps its own output to itself); and it fails
with a `ZeroDenominator` error exactly when `den = 0`. -/
theorem reduceFraction_spec (num den : Int) :
    (reduceFraction num den = .error .zeroDenominator ↔ den = 0) ∧
    (den ≠ 0 → ∃ n d, reduceFraction num den = .ok (n, d) ∧ 0 < d ∧
      Nat.Coprime n.natAbs d.natAbs ∧ (n : ℚ) / (d : ℚ) = (num : ℚ) / (den : ℚ) ∧
      reduceFraction n d = .ok (n, d)) := by
  refine ⟨reduceFraction_error_iff num den, fun h => ?_⟩
  obtain ⟨n, d, hok, hdpos, hcop, hcross⟩ := reduceFraction_ok num den h
  exact ⟨n, d, hok, hdpos, hcop,
    ratio_eq_of_cross n d num den (by omega) h hcross,
    reduceFraction_fixed n d hdpos hcop⟩

/-- Witness for C7 at the concrete input `(4, -6)`. -/
theorem reduceFraction_spec_witness :
    ((-6 : Int) ≠ 0) ∧ ∃ n d, reduceFraction 4 (-6) = .ok (n, d) ∧ 0 < d ∧
      Nat.Coprime n.natAbs d.natAbs ∧ (n : ℚ) / (d : ℚ) = ((4 : Int) : ℚ) / (((-6) : Int) : ℚ) ∧
      reduceFraction n d = .ok (n, d) :=
  ⟨by decide, (reduceFraction_spec 4 (-6)).2 (by decide)⟩

/-! ## Properties of the base-N parser -/

/-- The digit loop succeeds on an all-valid digit list, computing the
positional fold from the accumulator. -/
theorem parseDigits_ok (base : Int) (l : List Char) (acc : Int)
    (h : ∀ c ∈ l, validDigitB base c = true) :
    parseDigits base acc l = .ok (l.foldl (fun r c => r * base + digitValInt c) acc) := by
  induction l generalizing acc with
  | nil => rfl
  | cons c rest ih =>
    have hc : validDigitB base c = true := h c (List.mem_cons_self c rest)
    unfold validDigitB at hc
    unfold parseDigits
    cases hd : digitVal c with
    | none => rw [hd] at hc; cases hc
    | some d =>
      rw [hd] at hc
      have hlt : (d : Int) < base := of_decide_eq_true hc
      simp only [if_neg (not_le.mpr hlt)]
      rw [ih _ (fun c hc => h c (List.mem_cons_of_mem _ hc))]
      simp only [List.foldl_cons, digitValInt, hd, Option.getD_some]

/-- The digit loop fails with `InvalidCharacter` as soon as some digit is
invalid. -/
theorem parseDigits_invalid (base : Int) (l : List Char) (acc : Int)
    (h : ¬ ∀ c ∈ l, validDigitB base c = true) :
    parseDigits base acc l = .error .invalidCharacter := by
  induction l generalizing acc with
  | nil => exact absurd (fun c hc => absurd hc (List.not_mem_nil c)) h
  | cons c rest ih =>
    unfold parseDigits
    by_cases hc : validDigitB base c = true
    · unfold validDigitB at hc
      cases hd : digitVal c with
      | none => simp [hd] at hc
      | some d =>
        rw [hd] at hc
        have hlt : (d : Int) < base := of_decide_eq_true hc
        simp only [if_neg (not_le.mpr hlt)]
        refine ih _ (fun hall => h ?_)
        intro x hx
        rcases List.mem_cons.mp hx with rfl | hxr
        · unfold validDigitB
          rw [hd]
          exact decide_eq_true hlt
        · exact hall x hxr
    · unfold validDigitB at hc
      cases hd : digitVal c with
      | none => rfl
      | some d =>
        rw [hd] at hc
        have hge : base ≤ (d : Int) := by
          by_contra hlt
          exact hc (decide_eq_true (not_le.mp hlt))
        simp only [if_pos hge]

/-- Dropping a predicate-satisfying prefix skips past any fully-satisfying
block. -/
theorem dropWhile_append_all {p : Char → Bool} {w l : List Char}
    (h : ∀ c ∈ w, p c = true) : (w ++ l).dropWhile p = l.dropWhile p := by
  induction w with
  | nil => rfl
  | cons c rest ih =>
    simp only [List.cons_append, List.dropWhile_cons, h c (List.mem_cons_self c rest), if_pos]
    exact ih (fun x hx => h x (List.mem_cons_of_mem _ hx))

/-- The function `dropWhile` empties a fully-satisfying list. -/
theorem dropWhile_all_nil {p : Char → Bool} {w : List Char}
    (h : ∀ c ∈ w, p c = true) : w.dropWhile p = [] := by
  have h2 : (w ++ []).dropWhile p = List.dropWhile p [] := dropWhile_append_all h
  simpa using h2

/-- Trimming ignores an all-whitespace prefix. -/
theorem jsTrim_ws_left {w l : List Char} (h : ∀ c ∈ w, isJsWs c = true) :
    jsTrim (w ++ l) = jsTrim l := by
  unfold jsTrim
  rw [dropWhile_append_all h]

/-- Trimming ignores an all-whitespace suffix. -/
theorem jsTrim_ws_right {w l : List Char} (h : ∀ c ∈ w, isJsWs c = true) :
    jsTrim (l ++ w) = jsTrim l := by
  unfold jsTrim
  by_cases hd : l.dropWhile isJsWs = []
  · rw [List.dropWhile_append, hd]
    simp only [List.isEmpty_nil, if_pos]
    rw [dropWhile_all_nil h]
  · rw [List.dropWhile_append]
    have hie : (l.dropWhile isJsWs).isEmpty = false := by
      cases hcase : l.dropWhile isJsWs with
      | nil => exact absurd hcase hd
      | cons a as => rfl
    rw [hie]
    simp only [Bool.false_eq_true, if_neg, not_false_iff, List.reverse_append]
    rw [dropWhile_append_all (fun c hc => h c (List.mem_reverse.mp hc))]

/-- Trimming a list with no whitespace anywhere is the identity. -/
theorem jsTrim_nop {l : List Char} (h : ∀ c ∈ l, isJsWs c = false) :
    jsTrim l = l := by
  unfold jsTrim
  have h1 : l.dropWhile isJsWs = l := by
    cases l with
    | nil => rfl
    | cons c rest =>
      simp only [List.dropWhile_cons, h c (List.mem_cons_self c rest), Bool.false_eq_true,
        if_neg, not_false_iff]
  rw [h1]
  have h2 : l.reverse.dropWhile isJsWs = l.reverse := by
    cases hrev : l.reverse with
    | nil => rfl
    | cons c rest =>
      have hc : c ∈ l := by
        rw [← List.mem_reverse, hrev]
        exact List.mem_cons_self c rest
      simp only [List.dropWhile_cons, h c hc, Bool.false_eq_true, if_neg, not_false_iff]
  rw [h2, List.reverse_reverse]

/-- Classification of `parseAfterSign`: it gives `EmptyValue` exactly when
nothing remains after removing separators, `InvalidCharacter` exactly when
some remaining character is invalid, and otherwise succeeds. -/
theorem parseAfterSign_classify (sign base : Int) (l : List Char) :
    (parseAfterSign sign base l = .error .emptyValue ↔ l.filter (· != '_') = []) ∧
    (parseAfterSign sign base l = .error .invalidCharacter ↔
      l.filter (· != '_') ≠ [] ∧
        ¬ (l.filter (· != '_')).all (validDigitB base) = true) ∧
    ((∃ v, parseAfterSign sign base l = .ok v) ↔
      l.filter (· != '_') ≠ [] ∧ (l.filter (· != '_')).all (validDigitB base) = true) := by
  by_cases hf : l.filter (· != '_') = []
  · refine ⟨⟨fun _ => hf, fun _ => ?_⟩, ⟨?_, ?_⟩, ⟨?_, ?_⟩⟩
    · unfold parseAfterSign
      rw [if_pos hf]
    · intro h
      unfold parseAfterSign at h
      rw [if_pos hf] at h
      cases h
    · rintro ⟨hne, -⟩
      exact absurd hf hne
    · rintro ⟨v, h⟩
      unfold parseAfterSign at h
      rw [if_pos hf] at h
      cases h
    · rintro ⟨hne, -⟩
      exact absurd hf hne
  · by_cases hall : (l.filter (· != '_')).all (validDigitB base) = true
    · have hok : parseAfterSign sign base l =
          .ok (sign * (l.filter (· != '_')).foldl (fun r c => r * base + digitValInt c) 0) := by
        unfold parseAfterSign
        rw [if_neg hf, parseDigits_ok base _ 0 (fun c hc => List.all_eq_true.mp hall c hc)]
        rfl
      refine ⟨⟨fun h => ?_, fun h => absurd h hf⟩, ⟨fun h => ?_, ?_⟩, ⟨fun _ => ⟨hf, hall⟩, fun _ => ⟨_, hok⟩⟩⟩
      · rw [hok] at h
        cases h
      · rw [hok] at h
        cases h
      · rintro ⟨-, hall2⟩
        exact absurd hall (by simp [hall2])
    · have herr : parseAfterSign sign base l = .error .invalidCharacter := by
        unfold parseAfterSign
        rw [if_neg hf, parseDigits_invalid base _ 0 (fun hforall => hall (List.all_eq_true.mpr hforall))]
        rfl
      refine ⟨⟨fun h => ?_, fun h => absurd h hf⟩, ⟨fun _ => ⟨hf, hall⟩, fun _ => herr⟩,
        ⟨fun hx => ?_, fun hx => absurd hx.2 hall⟩⟩
      · rw [herr] at h
        cases h
      · obtain ⟨v, hv⟩ := hx
        rw [herr] at hv
        cases hv


/-- Reduction of the parser on a valid base when the trimmed input is
empty. -/
theorem parse_valid_nil (s : String) (b : Int) (hb : ¬ (b < 2 ∨ 36 < b))
    (ht : jsTrim s.data = []) :
    parseBigIntFromString s (some b) = .error .emptyValue := by
  simp only [parseBigIntFromString, if_neg hb, ht]
  rfl

/-- Reduction of the parser on a valid base when the trimmed input starts
with `+`. -/
theorem parse_valid_plus (s : String) (b : Int) (rest : List Char) (hb : ¬ (b < 2 ∨ 36 < b))
    (ht : jsTrim s.data = '+' :: rest) :
    parseBigIntFromString s (some b) =
      (if rest = [] then .error .emptyValue else parseAfterSign 1 b rest) := by
  simp only [parseBigIntFromString, if_neg hb, ht]
  rw [if_neg (List.cons_ne_nil '+' rest)]

/-- Reduction of the parser on a valid base when the trimmed input starts
with `-`. -/
theorem parse_valid_minus (s : String) (b : Int) (rest : List Char) (hb : ¬ (b < 2 ∨ 36 < b))
    (ht : jsTrim s.data = '-' :: rest) :
    parseBigIntFromString s (some b) =
      (if rest = [] then .error .emptyValue else parseAfterSign (-1) b rest) := by
  simp only [parseBigIntFromString, if_neg hb, ht]
  rw [if_neg (List.cons_ne_nil '-' rest)]

/-- Reduction of the parser on a valid base when the trimmed input starts
with a non-sign character. -/
theorem parse_valid_other (s : String) (b : Int) (c : Char) (rest : List Char)
    (hb : ¬ (b < 2 ∨ 36 < b)) (ht : jsTrim s.data = c :: rest)
    (h1 : c ≠ '+') (h2 : c ≠ '-') :
    parseBigIntFromString s (some b) = parseAfterSign 1 b (c :: rest) := by
  simp only [parseBigIntFromString, if_neg hb, ht]
  rw [if_neg (List.cons_ne_nil c rest)]
  split
  · rename_i heq
    cases heq
    exact absurd rfl h1
  · rename_i heq
    cases heq
    exact absurd rfl h2
  · rfl

/-- The function `coreDigits` on a list that starts with a non-sign character filters
the whole list. -/
theorem coreDigits_other (c : Char) (rest : List Char) (h1 : c ≠ '+') (h2 : c ≠ '-') :
    coreDigits (c :: rest) = (c :: rest).filter (· != '_') := by
  unfold coreDigits
  congr 1
  split
  · rename_i heq
    cases heq
    exact absurd rfl h1
  · rename_i heq
    cases heq
    exact absurd rfl h2
  · rfl

/-- Classification of the parser for a valid base, given the trimmed
input, in terms of the scanned digit characters `coreDigits`. -/
theorem parse_classify_core (s : String) (b : Int) (hb2 : 2 ≤ b) (hb36 : b ≤ 36) :
    (parseBigIntFromString s (some b) = .error .emptyValue ↔
      coreDigits (jsTrim s.data) = []) ∧
    (parseBigIntFromString s (some b) = .error .invalidCharacter ↔
      coreDigits (jsTrim s.data) ≠ [] ∧
        ¬ (coreDigits (jsTrim s.data)).all (validDigitB b) = true) ∧
    ((∃ v, parseBigIntFromString s (some b) = .ok v) ↔
      coreDigits (jsTrim s.data) ≠ [] ∧
        (coreDigits (jsTrim s.data)).all (validDigitB b) = true) := by
  have hb : ¬ (b < 2 ∨ 36 < b) := by omega
  cases ht : jsTrim s.data with
  | nil =>
    rw [parse_valid_nil s b hb ht]
    refine ⟨⟨fun _ => rfl, fun _ => rfl⟩, ⟨fun h => ?_, fun h => absurd rfl h.1⟩,
      ⟨fun hx => ?_, fun h => absurd rfl h.1⟩⟩
    · cases h
    · obtain ⟨v, hv⟩ := hx
      cases hv
  | cons c rest =>
    by_cases h1 : c = '+'
    · subst h1
      rw [parse_valid_plus s b rest hb ht]
      by_cases hr : rest = []
      · subst hr
        rw [if_pos rfl]
        refine ⟨⟨fun _ => rfl, fun _ => rfl⟩, ⟨fun h => ?_, fun h => absurd rfl h.1⟩,
          ⟨fun hx => ?_, fun h => absurd rfl h.1⟩⟩
        · cases h
        · obtain ⟨v, hv⟩ := hx
          cases hv
      · rw [if_neg hr]
        exact parseAfterSign_classify 1 b rest
    · by_cases h2 : c = '-'
      · subst h2
        rw [parse_valid_minus s b rest hb ht]
        by_cases hr : rest = []
        · subst hr
          rw [if_pos rfl]
          refine ⟨⟨fun _ => rfl, fun _ => rfl⟩, ⟨fun h => ?_, fun h => absurd rfl h.1⟩,
            ⟨fun hx => ?_, fun h => absurd rfl h.1⟩⟩
          · cases h
          · obtain ⟨v, hv⟩ := hx
            cases hv
        · rw [if_neg hr]
          exact parseAfterSign_classify (-1) b rest
      · rw [parse_valid_other s b c rest hb ht h1 h2, coreDigits_other c rest h1 h2]
        exact parseAfterSign_classify 1 b (c :: rest)

/-- Whitespace characters are never valid digits. -/
theorem ws_not_digit (c : Char) (h : isJsWs c = true) (b : Int) : validDigitB b c = false := by
  have hmem : c ∈ jsWhitespaceChars := by
    have hh := h
    unfold isJsWs at hh
    obtain ⟨a, ha, hab⟩ := List.contains_iff_exists_mem_beq.mp hh
    rwa [show c = a from beq_iff_eq.mp hab]
  fin_cases hmem <;> rfl

/-- The parser's result depends on the input string only through its
trimmed character list. -/
theorem parse_eq_of_trim_eq (s t : String) (bo : Option Int)
    (h : jsTrim s.data = jsTrim t.data) :
    parseBigIntFromString s bo = parseBigIntFromString t bo := by
  cases bo with
  | none => rfl
  | some b =>
    by_cases hb : b < 2 ∨ 36 < b
    · simp only [parseBigIntFromString, if_pos hb]
    · cases ht : jsTrim t.data with
      | nil => rw [parse_valid_nil s b hb (h.trans ht), parse_valid_nil t b hb ht]
      | cons c rest =>
        by_cases h1 : c = '+'
        · subst h1
          rw [parse_valid_plus s b rest hb (h.trans ht), parse_valid_plus t b rest hb ht]
        · by_cases h2 : c = '-'
          · subst h2
            rw [parse_valid_minus s b rest hb (h.trans ht), parse_valid_minus t b rest hb ht]
          · rw [parse_valid_other s b c rest hb (h.trans ht) h1 h2,
              parse_valid_other t b c rest hb ht h1 h2]

/-- Trimming an all-whitespace list gives the empty list. -/
theorem jsTrim_all_ws {w : List Char} (h : ∀ c ∈ w, isJsWs c = true) : jsTrim w = [] := by
  unfold jsTrim
  rw [dropWhile_all_nil h]
  rfl

/-- Claim C10: The parser trims leading and trailing whitespace before any
other processing: surrounding any input with whitespace does not change
the result, and a whitespace-only string (under a valid base) is treated
as empty, failing with the `EmptyValue` error. -/
theorem parser_trims_whitespace (s : String) (bo : Option Int) (b : Int) (w1 w2 : List Char)
    (h1 : ∀ c ∈ w1, isJsWs c = true) (h2 : ∀ c ∈ w2, isJsWs c = true)
    (hb2 : 2 ≤ b) (hb36 : b ≤ 36) :
    parseBigIntFromString (String.mk (w1 ++ s.data ++ w2)) bo = parseBigIntFromString s bo ∧
    parseBigIntFromString (String.mk (w1 ++ w2)) (some b) = .error .emptyValue := by
  constructor
  · refine parse_eq_of_trim_eq _ s bo ?_
    show jsTrim (w1 ++ s.data ++ w2) = jsTrim s.data
    rw [List.append_assoc, jsTrim_ws_left h1, jsTrim_ws_right h2]
  · refine parse_valid_nil _ b (by omega) ?_
    show jsTrim (w1 ++ w2) = []
    rw [jsTrim_ws_left h1]
    exact jsTrim_all_ws h2

/-- Witness for C10 at `s = "42"`, base 10, one space before and one tab
after. -/
theorem parser_trims_whitespace_witness :
    parseBigIntFromString (String.mk ([' '] ++ "42".data ++ ['\t'])) (some 10) =
      parseBigIntFromString "42" (some 10) ∧
    parseBigIntFromString (String.mk ([' '] ++ ['\t'])) (some 10) = .error .emptyValue :=
  parser_trims_whitespace "42" (some 10) 10 [' '] ['\t']
    (by decide) (by decide) (by decide) (by decide)

/-- Evaluation of the parser on an input decomposed as whitespace ++ sign
++ digit block ++ whitespace: the result is determined by the sign and the
separator-stripped digit block. -/
theorem parse_shape (b : Int) (hb : ¬ (b < 2 ∨ 36 < b)) (w1 w2 p ds : List Char)
    (hp : p = [] ∨ p = ['+'] ∨ p = ['-'])
    (hw1 : ∀ c ∈ w1, isJsWs c = true) (hw2 : ∀ c ∈ w2, isJsWs c = true)
    (hds : ∀ c ∈ ds, isJsWs c = false)
    (hh1 : ds.head? ≠ some '+') (hh2 : ds.head? ≠ some '-') :
    parseBigIntFromString (String.mk (w1 ++ p ++ ds ++ w2)) (some b) =
      (if ds.filter (· != '_') = [] then .error .emptyValue
       else (parseDigits b 0 (ds.filter (· != '_'))).map
         (fun r => (if p = ['-'] then (-1 : Int) else 1) * r)) := by
  have hpws : ∀ c ∈ p, isJsWs c = false := by
    rcases hp with rfl | rfl | rfl
    · intro c hc
      cases hc
    · intro c hc
      rcases List.mem_singleton.mp hc with rfl
      rfl
    · intro c hc
      rcases List.mem_singleton.mp hc with rfl
      rfl
  have htr : jsTrim (String.mk (w1 ++ p ++ ds ++ w2)).data = p ++ ds := by
    show jsTrim (w1 ++ p ++ ds ++ w2) = p ++ ds
    have hassoc : w1 ++ p ++ ds ++ w2 = w1 ++ ((p ++ ds) ++ w2) := by
      simp [List.append_assoc]
    rw [hassoc, jsTrim_ws_left hw1, jsTrim_ws_right hw2]
    refine jsTrim_nop ?_
    intro c hc
    rcases List.mem_append.mp hc with hcp | hcd
    · exact hpws c hcp
    · exact hds c hcd
  rcases hp with rfl | rfl | rfl
  · rw [List.nil_append] at htr
    cases hds_shape : ds with
    | nil =>
      rw [hds_shape] at htr
      rw [parse_valid_nil _ b hb htr]
      rfl
    | cons c rest =>
      have hc1 : c ≠ '+' := by
        intro hcc
        rw [hds_shape, hcc] at hh1
        exact hh1 rfl
      have hc2 : c ≠ '-' := by
        intro hcc
        rw [hds_shape, hcc] at hh2
        exact hh2 rfl
      rw [hds_shape] at htr
      rw [parse_valid_other _ b c rest hb htr hc1 hc2, ← hds_shape]
      rw [hds_shape]
      rfl
  · rw [parse_valid_plus _ b ds hb htr]
    cases hds_shape : ds with
    | nil => rfl
    | cons c rest =>
      rw [if_neg (List.cons_ne_nil c rest)]
      rfl
  · rw [parse_valid_minus _ b ds hb htr]
    cases hds_shape : ds with
    | nil => rfl
    | cons c rest =>
      rw [if_neg (List.cons_ne_nil c rest)]
      rfl

/-- Claim C8: Inserting (or removing) `_` separator characters among the
digit block of an input never changes the parser's result; in particular
`"1_234"` in base 10 parses to the same integer as `"1234"`, namely
`1234`. -/
theorem underscore_insertion_invariance (b : Int) (w1 w2 p ds ds' : List Char)
    (hp : p = [] ∨ p = ['+'] ∨ p = ['-'])
    (hw1 : ∀ c ∈ w1, isJsWs c = true) (hw2 : ∀ c ∈ w2, isJsWs c = true)
    (hds : ∀ c ∈ ds, isJsWs c = false) (hds' : ∀ c ∈ ds', isJsWs c = false)
    (hh1 : ds.head? ≠ some '+') (hh2 : ds.head? ≠ some '-')
    (hh3 : ds'.head? ≠ some '+') (hh4 : ds'.head? ≠ some '-')
    (hfilter : ds'.filter (· != '_') = ds.filter (· != '_')) :
    parseBigIntFromString (String.mk (w1 ++ p ++ ds' ++ w2)) (some b) =
      parseBigIntFromString (String.mk (w1 ++ p ++ ds ++ w2)) (some b) ∧
    parseBigIntFromString "1_234" (some 10) = parseBigIntFromString "1234" (some 10) ∧
    parseBigIntFromString "1_234" (some 10) = .ok 1234 := by
  refine ⟨?_, by decide, by decide⟩
  by_cases hb : b < 2 ∨ 36 < b
  · simp only [parseBigIntFromString, if_pos hb]
  · rw [parse_shape b hb w1 w2 p ds' hp hw1 hw2 hds' hh3 hh4,
      parse_shape b hb w1 w2 p ds hp hw1 hw2 hds hh1 hh2, hfilter]

/-- Witness for C8: inserting `_` into the digits of `"-1234"` in base
10. -/
theorem underscore_insertion_invariance_witness :
    parseBigIntFromString
        (String.mk ([] ++ ['-'] ++ ['1', '_', '2', '3', '4'] ++ [])) (some 10) =
      parseBigIntFromString (String.mk ([] ++ ['-'] ++ ['1', '2', '3', '4'] ++ [])) (some 10) ∧
    parseBigIntFromString "1_234" (some 10) = parseBigIntFromString "1234" (some 10) ∧
    parseBigIntFromString "1_234" (some 10) = .ok 1234 :=
  underscore_insertion_invariance 10 [] [] ['-'] ['1', '2', '3', '4'] ['1', '_', '2', '3', '4']
    (by decide) (by decide) (by decide) (by decide) (by decide)
    (by decide) (by decide) (by decide) (by decide) (by decide)

/-- A valid digit is not the separator and not a sign character. -/
theorem validDigit_ne_special (b : Int) (c : Char) (h : validDigitB b c = true) :
    c ≠ '_' ∧ c ≠ '+' ∧ c ≠ '-' := by
  refine ⟨?_, ?_, ?_⟩ <;> rintro rfl <;> cases h

/-- Claim C2: For every base in `[2, 36]` and every nonempty string of valid
digits, optionally preceded by a single `+` or `-`, the parser returns the
integer obtained by left-to-right positional accumulation
`result = result * base + digit`, with the sign applied at the end; in
particular `"-ff"` in base 16 parses to the negation of `"ff"`. -/
theorem parseBigIntFromString_positional (b : Int) (ds : List Char)
    (hb2 : 2 ≤ b) (hb36 : b ≤ 36) (hne : ds ≠ [])
    (hvalid : ∀ c ∈ ds, validDigitB b c = true) :
    parseBigIntFromString (String.mk ds) (some b) = .ok (positionalValue b ds) ∧
    parseBigIntFromString (String.mk ('+' :: ds)) (some b) = .ok (positionalValue b ds) ∧
    parseBigIntFromString (String.mk ('-' :: ds)) (some b) = .ok (-(positionalValue b ds)) ∧
    parseBigIntFromString "-ff" (some 16) =
      (parseBigIntFromString "ff" (some 16)).map (fun v => -v) := by
  have hb : ¬ (b < 2 ∨ 36 < b) := by omega
  have hds : ∀ c ∈ ds, isJsWs c = false := by
    intro c hc
    by_contra hws
    have hws' : isJsWs c = true := by
      cases hcase : isJsWs c with
      | false => exact absurd hcase hws
      | true => rfl
    have := ws_not_digit c hws' b
    rw [hvalid c hc] at this
    cases this
  have hh1 : ds.head? ≠ some '+' := by
    cases ds with
    | nil => intro h; cases h
    | cons c rest =>
      intro h
      have hc : c = '+' := by
        cases h
        rfl
      have := (validDigit_ne_special b c (hvalid c (List.mem_cons_self c rest))).2.1
      exact this hc
  have hh2 : ds.head? ≠ some '-' := by
    cases ds with
    | nil => intro h; cases h
    | cons c rest =>
      intro h
      have hc : c = '-' := by
        cases h
        rfl
      have := (validDigit_ne_special b c (hvalid c (List.mem_cons_self c rest))).2.2
      exact this hc
  have hfds : ds.filter (· != '_') = ds := by
    refine List.filter_eq_self.mpr ?_
    intro c hc
    have := (validDigit_ne_special b c (hvalid c hc)).1
    exact bne_iff_ne.mpr this
  have key : ∀ p : List Char, p = [] ∨ p = ['+'] ∨ p = ['-'] →
      parseBigIntFromString (String.mk (p ++ ds)) (some b) =
        .ok ((if p = ['-'] then (-1 : Int) else 1) * positionalValue b ds) := by
    intro p hp
    have h0 := parse_shape b hb [] [] p ds hp (by intro c hc; cases hc) (by intro c hc; cases hc)
      hds hh1 hh2
    simp only [List.nil_append, List.append_nil] at h0
    rw [h0, hfds, if_neg hne, parseDigits_ok b ds 0 hvalid]
    rfl
  have k1 := key [] (Or.inl rfl)
  have k2 := key ['+'] (Or.inr (Or.inl rfl))
  have k3 := key ['-'] (Or.inr (Or.inr rfl))
  rw [List.nil_append] at k1
  have e1 : (if ([] : List Char) = ['-'] then (-1 : Int) else 1) = 1 := by decide
  have e2 : (if (['+'] : List Char) = ['-'] then (-1 : Int) else 1) = 1 := by decide
  have e3 : (if (['-'] : List Char) = ['-'] then (-1 : Int) else 1) = -1 := by decide
  rw [e1, one_mul] at k1
  rw [e2, one_mul] at k2
  rw [e3, neg_one_mul] at k3
  exact ⟨k1, k2, k3, by decide⟩

/-- Witness for C2 at base 16 with digits `"fF"` (case-insensitive). -/
theorem parseBigIntFromString_positional_witness :
    parseBigIntFromString (String.mk ['f', 'F']) (some 16) =
      .ok (positionalValue 16 ['f', 'F']) ∧
    parseBigIntFromString (String.mk ('+' :: ['f', 'F'])) (some 16) =
      .ok (positionalValue 16 ['f', 'F']) ∧
    parseBigIntFromString (String.mk ('-' :: ['f', 'F'])) (some 16) =
      .ok (-(positionalValue 16 ['f', 'F'])) ∧
    parseBigIntFromString "-ff" (some 16) =
      (parseBigIntFromString "ff" (some 16)).map (fun v => -v) :=
  parseBigIntFromString_positional 16 ['f', 'F'] (by decide) (by decide) (by decide) (by decide)

/-- Claim C6, counterexample: On the input `" 1"` (a space, then `1`), the
character list after sign/separator stripping is nonempty and contains a
character (the space) that is not in the digit alphabet, so the claimed
classification requires an `InvalidCharacter` failure; the parser instead
trims the whitespace first and succeeds with the value `1`. -/
theorem parser_failure_classification_counterexample :
    coreDigits " 1".data ≠ [] ∧
    (∃ c ∈ coreDigits " 1".data, validDigitB 10 c = false) ∧
    parseBigIntFromString " 1" (some 10) = .ok 1 := by
  refine ⟨by decide, ⟨' ', by decide, by decide⟩, by decide⟩

/-- Claim C6, amended: The parser fails exactly in these cases: with
`InvalidBase` when the base is not an integer in `[2, 36]` (a `none` base
models a non-integer `Number(base)`); after trimming leading and trailing
whitespace, with `EmptyValue` when the trimmed string is empty or becomes
empty after stripping the optional sign and the `_` separators; with
`InvalidCharacter` when some remaining scanned character is not in the
alphabet under JS case folding (`toLowerCase`, which also maps U+212A to
`k`) or has digit value `≥ base`; on every other input it succeeds. -/
theorem parser_failure_classification (s : String) (b : Int) :
    (parseBigIntFromString s none = .error .invalidBase) ∧
    (b < 2 ∨ 36 < b → parseBigIntFromString s (some b) = .error .invalidBase) ∧
    (2 ≤ b → b ≤ 36 →
      ((parseBigIntFromString s (some b) = .error .emptyValue ↔
         coreDigits (jsTrim s.data) = []) ∧
       (parseBigIntFromString s (some b) = .error .invalidCharacter ↔
         coreDigits (jsTrim s.data) ≠ [] ∧
           ¬ (coreDigits (jsTrim s.data)).all (validDigitB b) = true) ∧
       ((∃ v, parseBigIntFromString s (some b) = .ok v) ↔
         coreDigits (jsTrim s.data) ≠ [] ∧
           (coreDigits (jsTrim s.data)).all (validDigitB b) = true))) := by
  refine ⟨rfl, fun hb => ?_, fun h2 h36 => parse_classify_core s b h2 h36⟩
  simp only [parseBigIntFromString, if_pos hb]

/-- Witness for the amended C6: `"1_f"` in base 16 is accepted, and the
Kelvin sign U+212A case-folds to `k` and is accepted as digit 20 in base
21 (but rejected in base 20). -/
theorem parser_failure_classification_witness :
    (∃ v, parseBigIntFromString "1_f" (some 16) = .ok v) ∧
    parseBigIntFromString (String.mk ['\u212A']) (some 21) = .ok 20 ∧
    parseBigIntFromString (String.mk ['\u212A']) (some 20) = .error .invalidCharacter :=
  ⟨((parser_failure_classification "1_f" 16).2.2 (by decide) (by decide)).2.2.mpr (by decide),
    by decide, by decide⟩

/-! ## Point-entry processing (Point Set Builder) -/

/-- Claim C5: For every point entry, the builder requires a `base` field
(failing with `InvalidPointEntry` when it is missing) and a `value`
field; the value is accepted as a string, or as a numeric or boolean
primitive coerced to its JS string form (decimal for numbers,
`"true"`/`"false"` for booleans) before base-N parsing; a value of any
other representation (missing, `null`, array, object) fails with
`InvalidValueType`. -/
theorem entry_value_typing (fields : List (String × JVal)) :
    (jsonField (.obj fields) "base" = none →
      entryToY (.obj fields) = .error .invalidPointEntry) ∧
    (∀ bv, jsonField (.obj fields) "base" = some bv →
      ((∀ s, jsonField (.obj fields) "value" = some (.str s) →
         entryToY (.obj fields) =
           parseBigIntFromString s (jsParseInt10 (jsToString bv))) ∧
       (∀ n, jsonField (.obj fields) "value" = some (.num n) →
         entryToY (.obj fields) =
           parseBigIntFromString (toString n) (jsParseInt10 (jsToString bv))) ∧
       (∀ bl, jsonField (.obj fields) "value" = some (.boolv bl) →
         entryToY (.obj fields) =
           parseBigIntFromString (cond bl "true" "false") (jsParseInt10 (jsToString bv))) ∧
       ((jsonField (.obj fields) "value" = none ∨
         jsonField (.obj fields) "value" = some .null ∨
         (∃ l, jsonField (.obj fields) "value" = some (.arr l)) ∨
         (∃ fs, jsonField (.obj fields) "value" = some (.obj fs))) →
         entryToY (.obj fields) = .error .invalidValueType))) := by
  constructor
  · intro hb
    unfold entryToY
    rw [hb]
    rfl
  · intro bv hb
    refine ⟨?_, ?_, ?_, ?_⟩
    · intro s hs
      unfold entryToY
      rw [hb, hs]
      rfl
    · intro n hn
      unfold entryToY
      rw [hb, hn]
      rfl
    · intro bl hbl
      unfold entryToY
      rw [hb, hbl]
      rfl
    · rintro (hv | hv | ⟨l, hv⟩ | ⟨fs, hv⟩) <;>
        · unfold entryToY
          rw [hb, hv]
          rfl

/-- Witness for C5: a numeric value `42` with numeric base `16` is coerced
to the decimal string `"42"` and parsed in base 16. -/
theorem entry_value_typing_witness :
    entryToY (.obj [("value", .num 42), ("base", .num 16)]) =
      parseBigIntFromString (toString (42 : Int)) (jsParseInt10 (jsToString (.num 16))) :=
  ((entry_value_typing [("value", .num 42), ("base", .num 16)]).2 (.num 16) rfl).2.1 42 rfl

/-- Claim C9: For every record whose pipeline succeeds with the reduced
fraction `(num, den)`, the formatted output is the plain base-10 integer
string of `num` when `den = 1` and the string `"num/den"` otherwise; a
successful record produces no other output shape. -/
theorem output_format (r : Record) (num den : Int)
    (h : findConstantTermFromString r = .ok (num, den)) :
    processJsonStringOrFileContent r =
      .ok (if den = 1 then toString num else toString num ++ "/" ++ toString den) := by
  unfold processJsonStringOrFileContent
  rw [h]

/-- Witness for C9 on a record with the fractional constant term `4/3`
(points `(1,1)`, `(2,1)`, `(4,2)`, `k = 3`). -/
theorem output_format_witness :
    processJsonStringOrFileContent
        [("keys", .obj [("k", .num 3)]),
         ("1", .obj [("value", .str "1"), ("base", .num 10)]),
         ("2", .obj [("value", .str "1"), ("base", .num 10)]),
         ("4", .obj [("value", .str "2"), ("base", .num 10)])] =
      .ok (if (3 : Int) = 1 then toString (4 : Int)
           else toString (4 : Int) ++ "/" ++ toString (3 : Int)) :=
  output_format _ 4 3 (by decide)

/-! ## Duplicate-x rejection (C3) -/

/-- Characterisation of the inner loop when no scanned index duplicates
`xj`: it multiplies the accumulators by the products of `(0 - x_i)` and
`(x_j - x_i)` over the scanned indices other than `j`. -/
theorem innerLoop_eq_ok (pts : List (Int × Int)) (xj : Int) (j : Nat) (L : List Nat)
    (num den : Int) (h : ∀ i ∈ L, i ≠ j → (pts.getD i (0, 0)).1 ≠ xj) :
    innerLoop pts xj j L num den =
      .ok (num * ((L.filter (fun i => i != j)).map (fun i => 0 - (pts.getD i (0, 0)).1)).prod,
           den * ((L.filter (fun i => i != j)).map (fun i => xj - (pts.getD i (0, 0)).1)).prod) := by
  induction L generalizing num den with
  | nil => simp [innerLoop]
  | cons a rest ih =>
    by_cases ha : a = j
    · subst ha
      rw [innerLoop, if_pos rfl]
      rw [ih num den (fun i hi => h i (List.mem_cons_of_mem _ hi))]
      simp
    · have hx : (pts.getD a (0, 0)).1 ≠ xj := h a (List.mem_cons_self a rest) ha
      rw [innerLoop, if_neg ha, if_neg hx]
      rw [ih _ _ (fun i hi => h i (List.mem_cons_of_mem _ hi))]
      have hfa : (a :: rest).filter (fun i => i != j) =
          a :: rest.filter (fun i => i != j) := by
        rw [List.filter_cons_of_pos]
        exact bne_iff_ne.mpr ha
      rw [hfa]
      simp only [List.map_cons, List.prod_cons]
      rw [mul_assoc, mul_assoc]

/-- The inner loop throws `DuplicateX` when some scanned index other than
`j` carries the value `xj`. -/
theorem innerLoop_dup_error (pts : List (Int × Int)) (xj : Int) (j : Nat) (L : List Nat)
    (num den : Int) (h : ∃ i ∈ L, i ≠ j ∧ (pts.getD i (0, 0)).1 = xj) :
    innerLoop pts xj j L num den = .error .duplicateX := by
  induction L generalizing num den with
  | nil =>
    obtain ⟨i, hi, -⟩ := h
    cases hi
  | cons a rest ih =>
    obtain ⟨i, hi, hij, hx⟩ := h
    by_cases ha : a = j
    · subst ha
      rw [innerLoop, if_pos rfl]
      refine ih _ _ ⟨i, ?_, hij, hx⟩
      rcases List.mem_cons.mp hi with rfl | hir
      · exact absurd rfl hij
      · exact hir
    · rw [innerLoop, if_neg ha]
      by_cases hax : (pts.getD a (0, 0)).1 = xj
      · rw [if_pos hax]
      · rw [if_neg hax]
        refine ih _ _ ⟨i, ?_, hij, hx⟩
        rcases List.mem_cons.mp hi with rfl | hir
        · exact absurd hx hax
        · exact hir

/-- The outer loop over a remaining index list throws `DuplicateX` as
soon as some remaining index has a duplicate partner among the first `k`
x-coordinates (provided the running denominator is nonzero so that the
preceding reductions succeed). -/
theorem outerLoop_dup (pts : List (Int × Int)) (k : Nat) (L : List Nat) (tn td : Int)
    (htd : td ≠ 0)
    (hex : ∃ j ∈ L, ∃ i < k, i ≠ j ∧ (pts.getD i (0, 0)).1 = (pts.getD j (0, 0)).1) :
    outerLoop pts k L tn td = .error .duplicateX := by
  induction L generalizing tn td with
  | nil =>
    obtain ⟨j, hj, -⟩ := hex
    cases hj
  | cons a rest ih =>
    by_cases hpa : ∃ i < k, i ≠ a ∧ (pts.getD i (0, 0)).1 = (pts.getD a (0, 0)).1
    · obtain ⟨i, hik, hia, hxeq⟩ := hpa
      rw [outerLoop]
      rw [innerLoop_dup_error pts _ a (List.range k) 1 1
        ⟨i, List.mem_range.mpr hik, hia, hxeq⟩]
    · have hnodup : ∀ i ∈ List.range k, i ≠ a → (pts.getD i (0, 0)).1 ≠ (pts.getD a (0, 0)).1 := by
        intro i hi hia hxeq
        exact hpa ⟨i, List.mem_range.mp hi, hia, hxeq⟩
      rw [outerLoop, innerLoop_eq_ok pts _ a (List.range k) 1 1 hnodup]
      set P1 : Int := 1 * (((List.range k).filter (fun i => i != a)).map
        (fun i => 0 - (pts.getD i (0, 0)).1)).prod with hP1
      set P2 : Int := 1 * (((List.range k).filter (fun i => i != a)).map
        (fun i => (pts.getD a (0, 0)).1 - (pts.getD i (0, 0)).1)).prod with hP2
      have hdne : P2 ≠ 0 := by
        rw [hP2, one_mul]
        refine List.prod_ne_zero ?_
        intro hmem
        obtain ⟨i, hi, hzero⟩ := List.mem_map.mp hmem
        have hia : i ≠ a := bne_iff_ne.mp (List.mem_filter.mp hi).2
        have hik : i ∈ List.range k := (List.mem_filter.mp hi).1
        exact hnodup i hik hia (by omega)
      obtain ⟨n1, d1, hok1, hd1pos, -, -⟩ :=
        reduceFraction_ok ((pts.getD a (0, 0)).2 * P1) P2 hdne
      simp only [hok1]
      have hden2 : td * d1 ≠ 0 := mul_ne_zero htd (by omega)
      obtain ⟨n2, d2, hok2, hd2pos, -, -⟩ :=
        reduceFraction_ok (tn * d1 + n1 * td) (td * d1) hden2
      simp only [hok2]
      refine ih _ _ (by omega) ?_
      obtain ⟨j, hj, hP⟩ := hex
      rcases List.mem_cons.mp hj with rfl | hjr
      · exact absurd hP hpa
      · exact ⟨j, hjr, hP⟩

/-- The point sort is sorted by ascending `x`. -/
theorem sortPointsByX_sorted (pts : List (Int × Int)) :
    (sortPointsByX pts).Sorted (fun a b => a.1 ≤ b.1) :=
  List.sorted_insertionSort _ pts

/-- The point sort permutes its input. -/
theorem sortPointsByX_perm (pts : List (Int × Int)) : (sortPointsByX pts).Perm pts :=
  List.perm_insertionSort _ pts

/-- If the adjacent-duplicate scan finds nothing on a sorted list, the x
coordinates are strictly increasing, hence pairwise distinct. -/
theorem adjacentDupX_false_pairwise (l : List (Int × Int)) (hdup : adjacentDupX l = false)
    (hs : l.Sorted (fun a b => a.1 ≤ b.1)) : l.Pairwise (fun a b => a.1 < b.1) := by
  induction l with
  | nil => exact List.Pairwise.nil
  | cons a rest ih =>
    cases rest with
    | nil => exact List.pairwise_singleton _ a
    | cons b rest2 =>
      have hdup' : (a.1 == b.1 || adjacentDupX (b :: rest2)) = false := hdup
      have hne : a.1 ≠ b.1 := by
        intro h
        rw [h] at hdup'
        simp at hdup'
      have hdup2 : adjacentDupX (b :: rest2) = false := by
        rcases Bool.or_eq_false_iff.mp hdup' with ⟨-, h⟩
        exact h
      have hale : a.1 ≤ b.1 := List.rel_of_pairwise_cons hs (List.mem_cons_self b rest2)
      have hpw2 := ih hdup2 (List.Pairwise.of_cons hs)
      refine List.Pairwise.cons ?_ hpw2
      intro c hc
      rcases List.mem_cons.mp hc with rfl | hcr
      · exact lt_of_le_of_ne hale hne
      · exact lt_trans (lt_of_le_of_ne hale hne) (List.rel_of_pairwise_cons hpw2 hcr)

/-- Claim C3: Duplicate x-coordinates are rejected with `DuplicateX`:
(1) in the builder pipeline, whenever two of the selected `k` points (the
first `k` after the ascending-x sort) share an x coordinate, the whole
computation fails with `DuplicateX`; and (2) the evaluator
`computeConstantTermFromSelected`, invoked directly on any point list
containing two of its first `k` points with equal x, independently fails
with `DuplicateX`. -/
theorem duplicateX_rejection :
    (∀ (r : Record) (k : Nat) (pts : List (Int × Int)),
      getK r = .ok k → buildPoints r = .ok pts → ¬ pts.length < k →
      (∃ i j : Fin ((sortPointsByX pts).take k).length, i < j ∧
        (((sortPointsByX pts).take k).get i).1 = (((sortPointsByX pts).take k).get j).1) →
      findConstantTermFromString r = .error .duplicateX) ∧
    (∀ (pts : List (Int × Int)) (k i j : Nat), i < j → j < k → k ≤ pts.length →
      (pts.getD i (0, 0)).1 = (pts.getD j (0, 0)).1 →
      computeConstantTermFromSelected pts k = .error .duplicateX) := by
  constructor
  · intro r k pts hk hpts hlen hdup
    have hadj : adjacentDupX ((sortPointsByX pts).take k) = true := by
      by_contra hfalse
      have hfalse' : adjacentDupX ((sortPointsByX pts).take k) = false :=
        Bool.not_eq_true _ ▸ eq_false_of_ne_true hfalse
      have hsorted : ((sortPointsByX pts).take k).Sorted (fun a b => a.1 ≤ b.1) :=
        List.Pairwise.sublist (List.take_sublist k _) (sortPointsByX_sorted pts)
      have hpw := adjacentDupX_false_pairwise _ hfalse' hsorted
      obtain ⟨i, j, hij, heq⟩ := hdup
      have := List.pairwise_iff_get.mp hpw i j hij
      omega
    unfold findConstantTermFromString
    rw [hk]
    simp only []
    rw [hpts]
    simp only [if_neg hlen, hadj]
    rfl
  · intro pts k i j hij hjk hklen hxeq
    unfold computeConstantTermFromSelected
    rw [if_neg (show ¬ k = 0 by omega), if_neg (show ¬ pts.length < k by omega)]
    rw [outerLoop_dup pts k (List.range k) 0 1 one_ne_zero
      ⟨j, List.mem_range.mpr hjk, i, by omega, by omega, hxeq⟩]

/-- Witness for C3: the record with keys `"02"` and `"002"` (both
x = 2) fails in the builder, and a direct evaluator call on
`[(1,3),(1,5)]` with `k = 2` fails as well. -/
theorem duplicateX_rejection_witness :
    findConstantTermFromString
        [("keys", .obj [("k", .num 2)]),
         ("02", .obj [("value", .str "5"), ("base", .num 10)]),
         ("002", .obj [("value", .str "7"), ("base", .num 10)])] = .error .duplicateX ∧
    computeConstantTermFromSelected [(1, 3), (1, 5)] 2 = .error .duplicateX :=
  ⟨duplicateX_rejection.1 _ 2 [(2, 5), (2, 7)] (by decide) (by decide) (by decide)
      ⟨⟨0, by decide⟩, ⟨1, by decide⟩, by decide, by decide⟩,
    duplicateX_rejection.2 [(1, 3), (1, 5)] 2 0 1 (by decide) (by decide) (by decide) (by decide)⟩

/-! ## Order independence (C4) -/

/-- The function `buildPoints` succeeds when every field processes cleanly, returning
the fields' points in order. -/
theorem buildPoints_ok_of (r : Record) (h : ∀ f ∈ r, ∃ o, pointOfField f = .ok o) :
    buildPoints r = .ok (r.filterMap fieldPoint) := by
  induction r with
  | nil => rfl
  | cons f rest ih =>
    obtain ⟨o, ho⟩ := h f (List.mem_cons_self f rest)
    have ihr := ih (fun g hg => h g (List.mem_cons_of_mem _ hg))
    obtain ⟨key, entry⟩ := f
    unfold buildPoints
    unfold pointOfField at ho
    by_cases hkeys : (key == "keys") = true
    · rw [if_pos hkeys, ihr]
      have hfp : fieldPoint (key, entry) = none := by
        unfold fieldPoint pointOfField
        rw [if_pos hkeys]
      rw [List.filterMap_cons, hfp]
    · rw [if_neg hkeys]
      rw [if_neg hkeys] at ho
      by_cases hkey : keyIsIntString key = false
      · rw [if_pos hkey] at ho
        cases ho
      · rw [if_neg hkey] at ho
        have hkey' : keyIsIntString key = true := by
          cases hcase : keyIsIntString key with
          | false => exact absurd hcase hkey
          | true => rfl
        simp only [hkey', Bool.true_eq_false, if_neg, not_false_iff]
        cases hy : entryToY entry with
        | error e =>
          rw [hy] at ho
          cases ho
        | ok y =>
          rw [ihr]
          have hfp : fieldPoint (key, entry) = some (keyToInt key, y) := by
            unfold fieldPoint pointOfField
            rw [if_neg hkeys, if_neg hkey, hy]
          rw [List.filterMap_cons, hfp]

/-- If `buildPoints` succeeds, every field processes cleanly. -/
theorem buildPoints_ok_fields (r : Record) (pts : List (Int × Int))
    (h : buildPoints r = .ok pts) : ∀ f ∈ r, ∃ o, pointOfField f = .ok o := by
  induction r generalizing pts with
  | nil => intro f hf; cases hf
  | cons f rest ih =>
    intro g hg
    obtain ⟨key, entry⟩ := f
    unfold buildPoints at h
    by_cases hkeys : (key == "keys") = true
    · rw [if_pos hkeys] at h
      rcases List.mem_cons.mp hg with rfl | hgr
      · exact ⟨none, by unfold pointOfField; rw [if_pos hkeys]⟩
      · exact ih pts h g hgr
    · rw [if_neg hkeys] at h
      by_cases hkey : keyIsIntString key = false
      · rw [if_pos hkey] at h
        cases h
      · have hkey' : keyIsIntString key = true := by
          cases hcase : keyIsIntString key with
          | false => exact absurd hcase hkey
          | true => rfl
        simp only [hkey', Bool.true_eq_false, if_neg, not_false_iff] at h
        cases hy : entryToY entry with
        | error e =>
          rw [hy] at h
          cases h
        | ok y =>
          rw [hy] at h
          cases hrest : buildPoints rest with
          | error e =>
            rw [hrest] at h
            cases h
          | ok pts' =>
            rcases List.mem_cons.mp hg with rfl | hgr
            · exact ⟨some (keyToInt key, y), by
                unfold pointOfField
                rw [if_neg hkeys, if_neg hkey, hy]⟩
            · exact ih pts' hrest g hgr

/-- Under a permutation of the record's fields, `buildPoints` success
transfers and the point lists are permutations of each other. -/
theorem buildPoints_perm (r1 r2 : Record) (hperm : r1.Perm r2) (pts1 : List (Int × Int))
    (h1 : buildPoints r1 = .ok pts1) :
    ∃ pts2, buildPoints r2 = .ok pts2 ∧ pts1.Perm pts2 := by
  have hfields := buildPoints_ok_fields r1 pts1 h1
  have hfields2 : ∀ f ∈ r2, ∃ o, pointOfField f = .ok o :=
    fun f hf => hfields f (hperm.mem_iff.mpr hf)
  refine ⟨r2.filterMap fieldPoint, buildPoints_ok_of r2 hfields2, ?_⟩
  have heq : pts1 = r1.filterMap fieldPoint := by
    have := buildPoints_ok_of r1 hfields
    rw [h1] at this
    exact (Except.ok.injEq _ _).mp this
  rw [heq]
  exact hperm.filterMap fieldPoint

/-- A successful top-level lookup returns a field of the record. -/
theorem recordField_some_mem (r : Record) (name : String) (v : JVal)
    (h : recordField r name = some v) : (name, v) ∈ r := by
  unfold recordField at h
  cases hf : r.reverse.find? (fun f => f.1 == name) with
  | none =>
    rw [hf] at h
    cases h
  | some q =>
    rw [hf] at h
    have hq2 : q.2 = v := by
      cases h
      rfl
    have hqmem : q ∈ r.reverse := List.mem_of_find?_eq_some hf
    have hq1 : q.1 = name := beq_iff_eq.mp (by simpa using List.find?_some hf)
    have : q = (name, v) := by
      obtain ⟨q1, q2⟩ := q
      simp only at hq1 hq2
      rw [hq1, hq2]
    rw [← this]
    exact List.mem_reverse.mp hqmem

/-- A failed top-level lookup means no field has the name. -/
theorem recordField_none_iff (r : Record) (name : String) :
    recordField r name = none ↔ ∀ p ∈ r, p.1 ≠ name := by
  unfold recordField
  constructor
  · intro h p hp
    cases hf : r.reverse.find? (fun f => f.1 == name) with
    | none =>
      have := List.find?_eq_none.mp hf p (List.mem_reverse.mpr hp)
      exact fun he => this (beq_iff_eq.mpr he)
    | some q =>
      rw [hf] at h
      cases h
  · intro h
    rw [List.find?_eq_none.mpr (fun p hp => ?_)]
    · rfl
    · have := h p (List.mem_reverse.mp hp)
      exact fun hb => this (beq_iff_eq.mp hb)

/-- With pairwise-distinct field names, top-level lookup is invariant
under permutation of the fields. -/
theorem recordField_perm (r1 r2 : Record) (hperm : r1.Perm r2)
    (hnd : (r1.map Prod.fst).Nodup) (name : String) :
    recordField r1 name = recordField r2 name := by
  cases h1 : recordField r1 name with
  | none =>
    cases h2 : recordField r2 name with
    | none => rfl
    | some v =>
      have hmem : (name, v) ∈ r1 := hperm.mem_iff.mpr (recordField_some_mem r2 name v h2)
      have := (recordField_none_iff r1 name).mp h1 (name, v) hmem
      exact absurd rfl this
  | some v =>
    have hmem1 : (name, v) ∈ r1 := recordField_some_mem r1 name v h1
    cases h2 : recordField r2 name with
    | none =>
      have := (recordField_none_iff r2 name).mp h2 (name, v) (hperm.mem_iff.mp hmem1)
      exact absurd rfl this
    | some w =>
      have hmem2 : (name, w) ∈ r1 := hperm.mem_iff.mpr (recordField_some_mem r2 name w h2)
      have heq : (name, v) = ((name, w) : String × JVal) :=
        List.inj_on_of_nodup_map hnd hmem1 hmem2 rfl
      have : v = w := (Prod.mk.injEq _ _ _ _).mp heq |>.2
      rw [this]

/-- The function `getK` depends on the record only through the `keys` field. -/
theorem getK_congr (r1 r2 : Record) (h : recordField r1 "keys" = recordField r2 "keys") :
    getK r1 = getK r2 := by
  unfold getK
  rw [h]

/-- Two sorted lists that are permutations of each other and have pairwise
distinct x coordinates are equal. -/
theorem sorted_perm_distinct_eq (l1 : List (Int × Int)) :
    ∀ l2 : List (Int × Int), l1.Perm l2 →
      l1.Sorted (fun a b => a.1 ≤ b.1) → l2.Sorted (fun a b => a.1 ≤ b.1) →
      l1.Pairwise (fun a b => a.1 ≠ b.1) → l1 = l2 := by
  induction l1 with
  | nil =>
    intro l2 hperm _ _ _
    exact (hperm.symm.eq_nil).symm
  | cons a t1 ih =>
    intro l2 hperm hs1 hs2 hnd
    cases l2 with
    | nil => cases hperm.eq_nil
    | cons b t2 =>
      have hab : a = b := by
        have hamem : a ∈ b :: t2 := hperm.mem_iff.mp (List.mem_cons_self a t1)
        have hbmem : b ∈ a :: t1 := hperm.mem_iff.mpr (List.mem_cons_self b t2)
        rcases List.mem_cons.mp hamem with rfl | hat2
        · rfl
        · rcases List.mem_cons.mp hbmem with heq | hbt1
          · exact heq.symm
          · have h1 : a.1 ≤ b.1 := List.rel_of_pairwise_cons hs1 hbt1
            have h2 : b.1 ≤ a.1 := List.rel_of_pairwise_cons hs2 hat2
            have hne : a.1 ≠ b.1 := List.rel_of_pairwise_cons hnd hbt1
            exact (hne (le_antisymm h1 h2)).elim
      subst hab
      have ht : t1.Perm t2 := hperm.cons_inv
      rw [ih t2 ht (List.Pairwise.of_cons hs1) (List.Pairwise.of_cons hs2)
        (List.Pairwise.of_cons hnd)]

/-- Claim C4, amended: For a record on which the computation succeeds and
whose parsed points have pairwise-distinct x coordinates, permuting the
record's fields (with field names distinct, as `JSON.parse` guarantees)
changes neither the result nor the sorted point list from which the
`k`-point subset is selected. -/
theorem order_independence_of_distinct_x (r1 r2 : Record) (v : Int × Int)
    (hperm : r1.Perm r2) (hnd : (r1.map Prod.fst).Nodup)
    (hok : findConstantTermFromString r1 = .ok v)
    (hdx : ∀ pts, buildPoints r1 = .ok pts → pts.Pairwise (fun a b => a.1 ≠ b.1)) :
    findConstantTermFromString r2 = .ok v ∧
    (∀ pts1 pts2, buildPoints r1 = .ok pts1 → buildPoints r2 = .ok pts2 →
      sortPointsByX pts1 = sortPointsByX pts2) := by
  have hsorteq : ∀ pts1 pts2, buildPoints r1 = .ok pts1 → buildPoints r2 = .ok pts2 →
      sortPointsByX pts1 = sortPointsByX pts2 := by
    intro pts1 pts2 h1 h2
    obtain ⟨pts2', h2', hpp⟩ := buildPoints_perm r1 r2 hperm pts1 h1
    have heq : pts2' = pts2 := by
      rw [h2'] at h2
      exact (Except.ok.injEq _ _).mp h2
    rw [heq] at hpp
    refine sorted_perm_distinct_eq _ _ ?_ (sortPointsByX_sorted pts1)
      (sortPointsByX_sorted pts2) ?_
    · exact (sortPointsByX_perm pts1).trans (hpp.trans (sortPointsByX_perm pts2).symm)
    · exact ((sortPointsByX_perm pts1).pairwise_iff (fun h => h.symm)).mpr (hdx pts1 h1)
  refine ⟨?_, hsorteq⟩
  unfold findConstantTermFromString at hok ⊢
  have hgk : getK r2 = getK r1 :=
    (getK_congr r1 r2 (recordField_perm r1 r2 hperm hnd "keys")).symm
  rw [hgk]
  cases hk : getK r1 with
  | error e =>
    rw [hk] at hok
    cases hok
  | ok k =>
    rw [hk] at hok
    cases h1 : buildPoints r1 with
    | error e =>
      rw [h1] at hok
      cases hok
    | ok pts1 =>
      rw [h1] at hok
      obtain ⟨pts2, h2, hpp⟩ := buildPoints_perm r1 r2 hperm pts1 h1
      rw [h2]
      simp only []
      have hlen : pts2.length = pts1.length := hpp.length_eq.symm
      rw [hlen, ← hsorteq pts1 pts2 h1 h2]
      exact hok

/-- Claim C4, counterexample: The record with `keys.k = 2` and point keys
`"1"`, `"02"`, `"002"` succeeds, and swapping the two entries whose keys
both denote x = 2 (a permutation of the point entries) changes the result
from `1` to `-1`: selection among equal x values depends on input
order. -/
theorem order_independence_counterexample :
    ([("keys", JVal.obj [("k", .num 2)]),
      ("1", .obj [("value", .str "3"), ("base", .num 10)]),
      ("02", .obj [("value", .str "5"), ("base", .num 10)]),
      ("002", .obj [("value", .str "7"), ("base", .num 10)])] : Record).Perm
      [("keys", JVal.obj [("k", .num 2)]),
       ("1", .obj [("value", .str "3"), ("base", .num 10)]),
       ("002", .obj [("value", .str "7"), ("base", .num 10)]),
       ("02", .obj [("value", .str "5"), ("base", .num 10)])] ∧
    findConstantTermFromString
      [("keys", JVal.obj [("k", .num 2)]),
       ("1", .obj [("value", .str "3"), ("base", .num 10)]),
       ("02", .obj [("value", .str "5"), ("base", .num 10)]),
       ("002", .obj [("value", .str "7"), ("base", .num 10)])] = .ok (1, 1) ∧
    findConstantTermFromString
      [("keys", JVal.obj [("k", .num 2)]),
       ("1", .obj [("value", .str "3"), ("base", .num 10)]),
       ("002", .obj [("value", .str "7"), ("base", .num 10)]),
       ("02", .obj [("value", .str "5"), ("base", .num 10)])] = .ok (-1, 1) :=
  ⟨(List.Perm.swap _ _ _).cons _ |>.cons _, by decide, by decide⟩

/-- Witness for the amended C4: permuting the extra point of a record with
distinct x coordinates changes nothing. -/
theorem order_independence_of_distinct_x_witness :
    findConstantTermFromString
        [("keys", JVal.obj [("k", .num 2)]),
         ("1", .obj [("value", .str "3"), ("base", .num 10)]),
         ("3", .obj [("value", .str "9"), ("base", .num 10)]),
         ("2", .obj [("value", .str "5"), ("base", .num 10)])] = .ok (1, 1) ∧
    (∀ pts1 pts2,
      buildPoints
        [("keys", JVal.obj [("k", .num 2)]),
         ("1", .obj [("value", .str "3"), ("base", .num 10)]),
         ("2", .obj [("value", .str "5"), ("base", .num 10)]),
         ("3", .obj [("value", .str "9"), ("base", .num 10)])] = .ok pts1 →
      buildPoints
        [("keys", JVal.obj [("k", .num 2)]),
         ("1", .obj [("value", .str "3"), ("base", .num 10)]),
         ("3", .obj [("value", .str "9"), ("base", .num 10)]),
         ("2", .obj [("value", .str "5"), ("base", .num 10)])] = .ok pts2 →
      sortPointsByX pts1 = sortPointsByX pts2) :=
  order_independence_of_distinct_x
    [("keys", JVal.obj [("k", .num 2)]),
     ("1", .obj [("value", .str "3"), ("base", .num 10)]),
     ("2", .obj [("value", .str "5"), ("base", .num 10)]),
     ("3", .obj [("value", .str "9"), ("base", .num 10)])]
    [("keys", JVal.obj [("k", .num 2)]),
     ("1", .obj [("value", .str "3"), ("base", .num 10)]),
     ("3", .obj [("value", .str "9"), ("base", .num 10)]),
     ("2", .obj [("value", .str "5"), ("base", .num 10)])]
    (1, 1)
    ((List.Perm.swap _ _ _).cons _ |>.cons _)
    (by decide) (by decide)
    (fun pts h => by
      have hb : buildPoints
          [("keys", JVal.obj [("k", .num 2)]),
           ("1", .obj [("value", .str "3"), ("base", .num 10)]),
           ("2", .obj [("value", .str "5"), ("base", .num 10)]),
           ("3", .obj [("value", .str "9"), ("base", .num 10)])] =
          .ok [(1, 3), (2, 5), (3, 9)] := by decide
      have hpts : pts = [(1, 3), (2, 5), (3, 9)] := by
        rw [hb] at h
        exact ((Except.ok.injEq _ _).mp h).symm
      rw [hpts]
      decide)

/-! ## Exact interpolation (C1) -/

/-- Products over `List.range` agree with products over `Finset.range`. -/
theorem list_range_map_prod (g : Nat → ℚ) (k : Nat) :
    ((List.range k).map g).prod = ∏ i ∈ Finset.range k, g i := by
  induction k with
  | zero => rfl
  | succ m ih =>
    rw [List.range_succ, List.map_append, List.prod_append, Finset.prod_range_succ, ih]
    simp

/-- Sums over `List.range` agree with sums over `Finset.range`. -/
theorem list_range_map_sum (g : Nat → ℚ) (k : Nat) :
    ((List.range k).map g).sum = ∑ i ∈ Finset.range k, g i := by
  induction k with
  | zero => rfl
  | succ m ih =>
    rw [List.range_succ, List.map_append, List.sum_append, Finset.sum_range_succ, ih]
    simp

/-- Filtered list products as products of conditional terms. -/
theorem list_filter_map_prod (q : Nat → Bool) (f : Nat → ℚ) (l : List Nat) :
    ((l.filter q).map f).prod = (l.map (fun i => if q i = true then f i else 1)).prod := by
  induction l with
  | nil => rfl
  | cons a rest ih =>
    cases hq : q a with
    | false =>
      rw [List.filter_cons_of_neg (by simp [hq]), List.map_cons, List.prod_cons, ih]
      simp [hq]
    | true =>
      rw [List.filter_cons_of_pos hq, List.map_cons, List.prod_cons, List.map_cons,
        List.prod_cons, ih]
      simp [hq]

/-- The integer products scanned by the inner loop, cast to `ℚ`, are the
Lagrange products over `(Finset.range k).erase j`. -/
theorem innerProd_cast (f : Nat → Int) (j k : Nat) :
    (((((List.range k).filter (fun i => i != j)).map f).prod : Int) : ℚ) =
      ∏ i ∈ (Finset.range k).erase j, (f i : ℚ) := by
  have h1 : (((((List.range k).filter (fun i => i != j)).map f).prod : Int) : ℚ) =
      ((((List.range k).filter (fun i => i != j)).map (fun i => (f i : ℚ))).prod) := by
    induction ((List.range k).filter (fun i => i != j)) with
    | nil => simp
    | cons a rest ih =>
      simp only [List.map_cons, List.prod_cons, Int.cast_mul, ih]
  rw [h1, list_filter_map_prod (fun i => i != j) (fun i => (f i : ℚ)) (List.range k),
    list_range_map_prod]
  rw [← Finset.filter_ne' (Finset.range k) j, Finset.prod_filter]
  refine Finset.prod_congr rfl ?_
  intro i hi
  by_cases hij : i = j
  · simp [hij]
  · simp [hij, bne_iff_ne.mpr hij]

/-- The value of the Lagrange interpolation polynomial at `0`, as the
standard sum of terms `r j * (prod (0 - v i)) / (prod (v j - v i))`. -/
theorem eval_zero_interpolate (s : Finset ℕ) (v r : ℕ → ℚ) :
    Polynomial.eval 0 (Lagrange.interpolate s v r) =
      ∑ j ∈ s, r j * ((∏ i ∈ s.erase j, (0 - v i)) / (∏ i ∈ s.erase j, (v j - v i))) := by
  rw [Lagrange.interpolate_apply, Polynomial.eval_finset_sum]
  refine Finset.sum_congr rfl ?_
  intro j hj
  rw [Polynomial.eval_mul, Polynomial.eval_C]
  congr 1
  unfold Lagrange.basis
  rw [Polynomial.eval_prod]
  have hdiv : ∀ i ∈ s.erase j, Polynomial.eval 0 (Lagrange.basisDivisor (v j) (v i)) =
      (v j - v i)⁻¹ * (0 - v i) := by
    intro i hi
    unfold Lagrange.basisDivisor
    rw [Polynomial.eval_mul, Polynomial.eval_C, Polynomial.eval_sub, Polynomial.eval_X,
      Polynomial.eval_C]
  rw [Finset.prod_congr rfl hdiv, Finset.prod_mul_distrib, Finset.prod_inv_distrib]
  rw [div_eq_mul_inv, mul_comm]

/-- Invariant of the outer loop on duplicate-free points: it succeeds with
a reduced positive-denominator fraction whose value accumulates the
running value plus the Lagrange terms of the remaining indices. -/
theorem outerLoop_ok (pts : List (Int × Int)) (k : Nat)
    (hdist : ∀ i j, i < k → j < k → i ≠ j →
      (pts.getD i (0, 0)).1 ≠ (pts.getD j (0, 0)).1) :
    ∀ (L : List Nat) (tn td : Int), (∀ j ∈ L, j < k) → 0 < td →
      Nat.Coprime tn.natAbs td.natAbs →
      ∃ n d, outerLoop pts k L tn td = .ok (n, d) ∧ 0 < d ∧
        Nat.Coprime n.natAbs d.natAbs ∧
        (n : ℚ) / (d : ℚ) = (tn : ℚ) / (td : ℚ) +
          (L.map (fun j => ((pts.getD j (0, 0)).2 : ℚ) *
            (((((List.range k).filter (fun i => i != j)).map
              (fun i => 0 - (pts.getD i (0, 0)).1)).prod : Int) : ℚ) /
            (((((List.range k).filter (fun i => i != j)).map
              (fun i => (pts.getD j (0, 0)).1 - (pts.getD i (0, 0)).1)).prod : Int) : ℚ))).sum := by
  intro L
  induction L with
  | nil =>
    intro tn td hL htd hcop
    exact ⟨tn, td, rfl, htd, hcop, by simp⟩
  | cons j rest ih =>
    intro tn td hL htd hcop
    have hjk : j < k := hL j (List.mem_cons_self j rest)
    have hnodup : ∀ i ∈ List.range k, i ≠ j → (pts.getD i (0, 0)).1 ≠ (pts.getD j (0, 0)).1 :=
      fun i hi hij => hdist i j (List.mem_range.mp hi) hjk hij
    rw [outerLoop, innerLoop_eq_ok pts _ j (List.range k) 1 1 hnodup]
    set N : Int := (((List.range k).filter (fun i => i != j)).map
      (fun i => 0 - (pts.getD i (0, 0)).1)).prod with hN
    set D : Int := (((List.range k).filter (fun i => i != j)).map
      (fun i => (pts.getD j (0, 0)).1 - (pts.getD i (0, 0)).1)).prod with hD
    have hDne : D ≠ 0 := by
      rw [hD]
      refine List.prod_ne_zero ?_
      intro hmem
      obtain ⟨i, hi, hzero⟩ := List.mem_map.mp hmem
      have hia : i ≠ j := bne_iff_ne.mp (List.mem_filter.mp hi).2
      have hik : i ∈ List.range k := (List.mem_filter.mp hi).1
      exact hnodup i hik hia (by omega)
    have hDne' : (1 : Int) * D ≠ 0 := by
      rw [one_mul]
      exact hDne
    obtain ⟨n1, d1, hok1, hd1pos, hcop1, hcross1⟩ :=
      reduceFraction_ok ((pts.getD j (0, 0)).2 * (1 * N)) (1 * D) hDne'
    simp only [hok1]
    have hden2 : td * d1 ≠ 0 := mul_ne_zero (by omega) (by omega)
    obtain ⟨n2, d2, hok2, hd2pos, hcop2, hcross2⟩ :=
      reduceFraction_ok (tn * d1 + n1 * td) (td * d1) hden2
    simp only [hok2]
    obtain ⟨n, d, hloop, hdpos, hcopf, hval⟩ :=
      ih n2 d2 (fun i hi => hL i (List.mem_cons_of_mem _ hi)) hd2pos hcop2
    refine ⟨n, d, hloop, hdpos, hcopf, ?_⟩
    rw [hval]
    have hv2 : (n2 : ℚ) / (d2 : ℚ) = ((tn * d1 + n1 * td : Int) : ℚ) / ((td * d1 : Int) : ℚ) :=
      ratio_eq_of_cross n2 d2 _ _ (by omega) hden2 hcross2
    have hv1 : (n1 : ℚ) / (d1 : ℚ) =
        (((pts.getD j (0, 0)).2 * (1 * N) : Int) : ℚ) / ((1 * D : Int) : ℚ) :=
      ratio_eq_of_cross n1 d1 _ _ (by omega) hDne' hcross1
    have htdne : (td : ℚ) ≠ 0 := by
      exact_mod_cast (by omega : td ≠ 0)
    have hd1ne : (d1 : ℚ) ≠ 0 := by
      exact_mod_cast (by omega : d1 ≠ 0)
    have hterm : (n1 : ℚ) / (d1 : ℚ) =
        ((pts.getD j (0, 0)).2 : ℚ) * (N : ℚ) / (D : ℚ) := by
      rw [hv1]
      push_cast
      ring
    have key : (n2 : ℚ) / (d2 : ℚ) =
        (tn : ℚ) / (td : ℚ) + ((pts.getD j (0, 0)).2 : ℚ) * (N : ℚ) / (D : ℚ) := by
      rw [hv2, ← hterm, Int.cast_add, Int.cast_mul, Int.cast_mul, Int.cast_mul,
        div_add_div _ _ htdne hd1ne]
      ring
    rw [key, hN, hD]
    simp only [List.map_cons, List.sum_cons]
    ring

/-- Evaluation of `computeConstantTermFromSelected` on duplicate-free points: success,
reduced output, and exact value as the sum of the Lagrange terms at
`x = 0`. -/
theorem compute_ok (pts : List (Int × Int)) (k : Nat) (hkne : k ≠ 0)
    (hlen : ¬ pts.length < k)
    (hdist : ∀ i j, i < k → j < k → i ≠ j →
      (pts.getD i (0, 0)).1 ≠ (pts.getD j (0, 0)).1) :
    ∃ n d, computeConstantTermFromSelected pts k = .ok (n, d) ∧ 0 < d ∧
      Nat.Coprime n.natAbs d.natAbs ∧
      (n : ℚ) / (d : ℚ) =
        ((List.range k).map (fun j => ((pts.getD j (0, 0)).2 : ℚ) *
          (((((List.range k).filter (fun i => i != j)).map
            (fun i => 0 - (pts.getD i (0, 0)).1)).prod : Int) : ℚ) /
          (((((List.range k).filter (fun i => i != j)).map
            (fun i => (pts.getD j (0, 0)).1 - (pts.getD i (0, 0)).1)).prod : Int) : ℚ))).sum := by
  obtain ⟨n, d, hloop, hdpos, hcop, hval⟩ := outerLoop_ok pts k hdist (List.range k) 0 1
    (fun j hj => List.mem_range.mp hj) one_pos (by decide)
  refine ⟨n, d, ?_, hdpos, hcop, ?_⟩
  · unfold computeConstantTermFromSelected
    rw [if_neg hkne, if_neg hlen, hloop]
    simp only []
    rw [if_neg (by omega : ¬ d = 0)]
    exact reduceFraction_fixed n d hdpos hcop
  · rw [hval]
    norm_num

/-- The sum of the loop's Lagrange terms is the value at `0` of the
Lagrange interpolation polynomial through the first `k` points. -/
theorem lagrange_sum_eq (pts : List (Int × Int)) (k : Nat) :
    ((List.range k).map (fun j => ((pts.getD j (0, 0)).2 : ℚ) *
      (((((List.range k).filter (fun i => i != j)).map
        (fun i => 0 - (pts.getD i (0, 0)).1)).prod : Int) : ℚ) /
      (((((List.range k).filter (fun i => i != j)).map
        (fun i => (pts.getD j (0, 0)).1 - (pts.getD i (0, 0)).1)).prod : Int) : ℚ))).sum =
      Polynomial.eval 0 (Lagrange.interpolate (Finset.range k)
        (fun i => ((pts.getD i (0, 0)).1 : ℚ)) (fun i => ((pts.getD i (0, 0)).2 : ℚ))) := by
  rw [eval_zero_interpolate, list_range_map_sum]
  refine Finset.sum_congr rfl ?_
  intro j hj
  rw [innerProd_cast (fun i => 0 - (pts.getD i (0, 0)).1) j k,
    innerProd_cast (fun i => (pts.getD j (0, 0)).1 - (pts.getD i (0, 0)).1) j k]
  rw [mul_div_assoc]
  congr 1
  congr 1
  · refine Finset.prod_congr rfl ?_
    intro i hi
    push_cast
    ring
  · refine Finset.prod_congr rfl ?_
    intro i hi
    push_cast
    ring

/-- If the first `k` points lie on an integer polynomial of degree at most
`k - 1`, the Lagrange interpolation value at `0` is that polynomial's
constant term. -/
theorem interpolate_int_poly (pts : List (Int × Int)) (k : Nat) (hpos : 0 < k)
    (hinj : Set.InjOn (fun i => ((pts.getD i (0, 0)).1 : ℚ)) ↑(Finset.range k))
    (P : Polynomial ℤ) (hdeg : P.natDegree ≤ k - 1)
    (hfit : ∀ i, i < k → Polynomial.eval (pts.getD i (0, 0)).1 P = (pts.getD i (0, 0)).2) :
    Polynomial.eval 0 (Lagrange.interpolate (Finset.range k)
      (fun i => ((pts.getD i (0, 0)).1 : ℚ)) (fun i => ((pts.getD i (0, 0)).2 : ℚ))) =
      (P.coeff 0 : ℚ) := by
  set Q : Polynomial ℚ := P.map (Int.castRingHom ℚ) with hQ
  have hQdeg : Q.degree < (Finset.range k).card := by
    rw [Finset.card_range]
    calc Q.degree ≤ P.degree := Polynomial.degree_map_le
    _ ≤ (P.natDegree : WithBot ℕ) := Polynomial.degree_le_natDegree
    _ < (k : WithBot ℕ) := by
        have hlt : P.natDegree < k := by omega
        exact_mod_cast hlt
  have hQeval : ∀ i ∈ Finset.range k,
      Q.eval ((pts.getD i (0, 0)).1 : ℚ) = ((pts.getD i (0, 0)).2 : ℚ) := by
    intro i hi
    rw [hQ, Polynomial.eval_map,
      show ((pts.getD i (0, 0)).1 : ℚ) = (Int.castRingHom ℚ) (pts.getD i (0, 0)).1 from rfl,
      Polynomial.eval₂_at_apply, hfit i (Finset.mem_range.mp hi)]
    rfl
  have hQint := Lagrange.eq_interpolate_of_eval_eq
    (fun i => ((pts.getD i (0, 0)).2 : ℚ)) hinj hQdeg hQeval
  rw [← hQint, hQ, Polynomial.eval_map,
    show (0 : ℚ) = (Int.castRingHom ℚ) 0 from rfl, Polynomial.eval₂_at_apply,
    Polynomial.coeff_zero_eq_eval_zero]
  rfl

/-- Claim C1: For every list of `k ≥ 1` points with pairwise-distinct x
coordinates, `computeConstantTermFromSelected(points, k)` succeeds with a
fully reduced fraction `(n, d)` (`d > 0`, `gcd(|n|, d) = 1`) whose value
is the value at `x = 0` of the unique interpolating polynomial of degree
at most `k - 1` through the points; and when the points lie exactly on a
polynomial with integer coefficients of degree at most `k - 1`, the
result is `(c, 1)` where `c` is that polynomial's constant term. -/
theorem computeConstantTermFromSelected_interpolation (pts : List (Int × Int)) (k : Nat)
    (hk : pts.length = k) (hpos : 0 < k)
    (hdist : pts.Pairwise (fun a b => a.1 ≠ b.1)) :
    ∃ n d, computeConstantTermFromSelected pts k = .ok (n, d) ∧ 0 < d ∧
      Nat.Coprime n.natAbs d.natAbs ∧
      (n : ℚ) / (d : ℚ) = Polynomial.eval 0 (Lagrange.interpolate (Finset.range k)
        (fun i => ((pts.getD i (0, 0)).1 : ℚ)) (fun i => ((pts.getD i (0, 0)).2 : ℚ))) ∧
      ∀ P : Polynomial ℤ, P.natDegree ≤ k - 1 →
        (∀ i, i < k → Polynomial.eval (pts.getD i (0, 0)).1 P = (pts.getD i (0, 0)).2) →
        n = P.coeff 0 ∧ d = 1 := by
  have hdix : ∀ i j, i < k → j < k → i ≠ j →
      (pts.getD i (0, 0)).1 ≠ (pts.getD j (0, 0)).1 := by
    have hpg := List.pairwise_iff_get.mp hdist
    intro i j hi hj hij
    have hi' : i < pts.length := by omega
    have hj' : j < pts.length := by omega
    have hgdi : pts.getD i (0, 0) = pts.get ⟨i, hi'⟩ := by
      rw [List.getD_eq_getElem pts (0, 0) hi']
      rfl
    have hgdj : pts.getD j (0, 0) = pts.get ⟨j, hj'⟩ := by
      rw [List.getD_eq_getElem pts (0, 0) hj']
      rfl
    rcases Nat.lt_or_ge i j with hlt | hge
    · have := hpg ⟨i, hi'⟩ ⟨j, hj'⟩ hlt
      rw [hgdi, hgdj]
      exact this
    · have hjlt : j < i := by omega
      have := hpg ⟨j, hj'⟩ ⟨i, hi'⟩ hjlt
      rw [hgdi, hgdj]
      exact fun he => this he.symm
  obtain ⟨n, d, hok, hdpos, hcop, hval⟩ := compute_ok pts k (by omega) (by omega) hdix
  have hvalI : (n : ℚ) / (d : ℚ) =
      Polynomial.eval 0 (Lagrange.interpolate (Finset.range k)
        (fun i => ((pts.getD i (0, 0)).1 : ℚ)) (fun i => ((pts.getD i (0, 0)).2 : ℚ))) :=
    hval.trans (lagrange_sum_eq pts k)
  refine ⟨n, d, hok, hdpos, hcop, hvalI, ?_⟩
  intro P hdeg hfit
  have hinj : Set.InjOn (fun i => ((pts.getD i (0, 0)).1 : ℚ)) ↑(Finset.range k) := by
    intro a ha b hb heq
    by_contra hab
    have ha' : a < k := by
      have := Finset.mem_coe.mp ha
      exact Finset.mem_range.mp this
    have hb' : b < k := by
      have := Finset.mem_coe.mp hb
      exact Finset.mem_range.mp this
    have hxeq : (pts.getD a (0, 0)).1 = (pts.getD b (0, 0)).1 := by
      have heq' : ((pts.getD a (0, 0)).1 : ℚ) = ((pts.getD b (0, 0)).1 : ℚ) := heq
      exact_mod_cast heq'
    exact hdix a b ha' hb' hab hxeq
  have hPeval := interpolate_int_poly pts k hpos hinj P hdeg hfit
  have hfrac : (n : ℚ) / (d : ℚ) = (P.coeff 0 : ℚ) := hvalI.trans hPeval
  have hdneQ : (d : ℚ) ≠ 0 := by
    exact_mod_cast (by omega : d ≠ 0)
  have hnc : (n : ℚ) = (P.coeff 0 : ℚ) * (d : ℚ) := (div_eq_iff hdneQ).mp hfrac
  have hnZ : n = P.coeff 0 * d := by exact_mod_cast hnc
  have hdvd : d ∣ n := ⟨P.coeff 0, by rw [hnZ]; ring⟩
  have hd1 : d = 1 := by
    have h1 : d.natAbs ∣ n.natAbs := Int.natAbs_dvd_natAbs.mpr hdvd
    have h2 : d.natAbs ∣ Nat.gcd n.natAbs d.natAbs := Nat.dvd_gcd h1 dvd_rfl
    rw [hcop] at h2
    have h3 : d.natAbs = 1 := Nat.dvd_one.mp h2
    omega
  exact ⟨by rw [hnZ, hd1, mul_one], hd1⟩

/-- Witness for C1 at the two points `(1, 3)`, `(2, 5)` (on the line
`y = 2x + 1`, constant term `1`). -/
theorem computeConstantTermFromSelected_interpolation_witness :
    ∃ n d, computeConstantTermFromSelected [(1, 3), (2, 5)] 2 = .ok (n, d) ∧ 0 < d ∧
      Nat.Coprime n.natAbs d.natAbs ∧
      (n : ℚ) / (d : ℚ) = Polynomial.eval 0 (Lagrange.interpolate (Finset.range 2)
        (fun i => ((([(1, 3), (2, 5)] : List (Int × Int)).getD i (0, 0)).1 : ℚ))
        (fun i => ((([(1, 3), (2, 5)] : List (Int × Int)).getD i (0, 0)).2 : ℚ))) ∧
      ∀ P : Polynomial ℤ, P.natDegree ≤ 2 - 1 →
        (∀ i, i < 2 →
          Polynomial.eval (([(1, 3), (2, 5)] : List (Int × Int)).getD i (0, 0)).1 P =
            (([(1, 3), (2, 5)] : List (Int × Int)).getD i (0, 0)).2) →
        n = P.coeff 0 ∧ d = 1 :=
  computeConstantTermFromSelected_interpolation [(1, 3), (2, 5)] 2 (by decide) (by decide)
    (by decide)
